import Mathlib

/-!
Verification of the MatrixOne BRANCH CDC sync engine (`branch_cdc.py`)
against its natural-language specification.

The development shallowly embeds the engine's pure algorithms (the SQL
statement lexer, the table-reference rewrite pass, watermark bookkeeping,
lock-lease logic, verification column resolution) as executable Lean
functions over `List Char` / `String` / explicit state records, and embeds
the effectful orchestration blocks (FULL apply, INCREMENTAL apply,
database-scope sync) as interpreters over an explicit destination-state +
oracle model in which a transaction's pending work becomes visible only at
commit.
-/

/-! ## Python string helpers

`str.strip()` / whitespace set of CPython (ASCII part, which is all the
engine ever feeds it). -/

def pyIsSpace (c : Char) : Bool :=
  c == ' ' || c == '\t' || c == '\n' || c == '\r' || c == '\x0b' || c == '\x0c'

/-- Python `str.strip()` on a list of characters: drop leading whitespace,
then trailing whitespace. -/
def pyStrip (l : List Char) : List Char :=
  ((l.dropWhile pyIsSpace).reverse.dropWhile pyIsSpace).reverse

/-- Python `str.strip()` on a `String`. -/
def pyStripStr (s : String) : String :=
  String.mk (pyStrip s.data)

/-! ## SQL statement lexer (`split_sql_statements`, branch_cdc.py lines 302-377)

The Python function keeps five mutually-exclusive booleans
(`in_single`, `in_double`, `in_backtick`, `in_line_comment`,
`in_block_comment`); at most one is ever set, so we embed the lexer state
as a six-valued mode. -/

inductive LexMode where
  | top
  | single
  | double
  | backtick
  | lineC
  | blockC
deriving DecidableEq, Repr

/-- The quoting/comment transition rules as the specification words them
(§4.5): backslash escaping and doubled-quote escaping inside single and
double quotes, doubled-backtick escaping inside backtick quotes, `--` line
comments ended by a newline, `/* */` block comments.  Returns the next
mode and whether the lookahead character was consumed as part of a
two-character token. -/
def lexStep : LexMode → Char → Option Char → LexMode × Bool
  | .lineC, c, _ => (if c = '\n' then .top else .lineC, false)
  | .blockC, c, nxt =>
      if c = '*' ∧ nxt = some '/' then (.top, true) else (.blockC, false)
  | .single, c, nxt =>
      if c = '\\' ∧ nxt.isSome then (.single, true)
      else if c = '\'' then
        (if nxt = some '\'' then (.single, true) else (.top, false))
      else (.single, false)
  | .double, c, nxt =>
      if c = '\\' ∧ nxt.isSome then (.double, true)
      else if c = '"' then
        (if nxt = some '"' then (.double, true) else (.top, false))
      else (.double, false)
  | .backtick, c, nxt =>
      if c = '`' then
        (if nxt = some '`' then (.backtick, true) else (.top, false))
      else (.backtick, false)
  | .top, c, nxt =>
      if c = '-' ∧ nxt = some '-' then (.lineC, true)
      else if c = '/' ∧ nxt = some '*' then (.blockC, true)
      else if c = '\'' then (.single, false)
      else if c = '"' then (.double, false)
      else if c = '`' then (.backtick, false)
      else (.top, false)

/-- Prepend a character onto the first segment of a segment list. -/
def consHead (c : Char) : List (List Char) → List (List Char)
  | [] => [[c]]
  | s :: ss => (c :: s) :: ss

/-- Specification-side splitter: cut the raw character stream exactly at
the semicolons that occur in `top` mode per `lexStep` (the "top-level `;`
boundaries" of §4.5), keeping every other character inside its current
segment.  No trimming, no dropping of empty segments. -/
def splitTopAux : LexMode → List Char → List (List Char)
  | _, [] => [[]]
  | m, c :: rest =>
    if m = .top ∧ c = ';' then [] :: splitTopAux .top rest
    else
      match rest with
      | [] => [[c]]
      | c2 :: rest2 =>
        match lexStep m c (some c2) with
        | (m', true) => consHead c (consHead c2 (splitTopAux m' rest2))
        | (m', false) => consHead c (splitTopAux m' (c2 :: rest2))

/-- Lexer mode after consuming a character stream (same traversal as
`splitTopAux`, tracking only the mode). -/
def endMode : LexMode → List Char → LexMode
  | m, [] => m
  | m, c :: rest =>
    if m = .top ∧ c = ';' then endMode .top rest
    else
      match rest with
      | [] => (lexStep m c none).1
      | c2 :: rest2 =>
        match lexStep m c (some c2) with
        | (m', true) => endMode m' rest2
        | (m', false) => endMode m' (c2 :: rest2)

/-- Statement flush of the Python lexer: `stmt = "".join(buf).strip(); if
stmt: stmts.append(stmt)`. -/
def flushBuf (buf : List Char) (stmts : List (List Char)) : List (List Char) :=
  let stmt := pyStrip buf
  if stmt = [] then stmts else stmts ++ [stmt]

/-- Code-side embedding of the main loop of `split_sql_statements`
(branch_cdc.py lines 302-377), branch for branch: `buf` is the current
statement buffer, `stmts` the emitted statements.  The Python loop reads
`nxt = sql_text[i+1] if i+1 < n else ""`; the one-character case below is
that loop with `nxt == ""`, the two-character case has `nxt = c2`. -/
def splitSqlAux : LexMode → List Char → List (List Char) → List Char → List (List Char)
  | _, buf, stmts, [] => flushBuf buf stmts
  | m, buf, stmts, [c] =>
    if m = .top ∧ c = ';' then flushBuf buf stmts
    else flushBuf (buf ++ [c]) stmts
  | .lineC, buf, stmts, c :: c2 :: rest =>
    if c = '\n' then splitSqlAux .top (buf ++ [c]) stmts (c2 :: rest)
    else splitSqlAux .lineC (buf ++ [c]) stmts (c2 :: rest)
  | .blockC, buf, stmts, c :: c2 :: rest =>
    if c = '*' ∧ c2 = '/' then splitSqlAux .top (buf ++ [c, c2]) stmts rest
    else splitSqlAux .blockC (buf ++ [c]) stmts (c2 :: rest)
  | .single, buf, stmts, c :: c2 :: rest =>
    if c = '\\' then splitSqlAux .single (buf ++ [c, c2]) stmts rest
    else if c = '\'' then
      if c2 = '\'' then splitSqlAux .single (buf ++ [c, c2]) stmts rest
      else splitSqlAux .top (buf ++ [c]) stmts (c2 :: rest)
    else splitSqlAux .single (buf ++ [c]) stmts (c2 :: rest)
  | .double, buf, stmts, c :: c2 :: rest =>
    if c = '\\' then splitSqlAux .double (buf ++ [c, c2]) stmts rest
    else if c = '"' then
      if c2 = '"' then splitSqlAux .double (buf ++ [c, c2]) stmts rest
      else splitSqlAux .top (buf ++ [c]) stmts (c2 :: rest)
    else splitSqlAux .double (buf ++ [c]) stmts (c2 :: rest)
  | .backtick, buf, stmts, c :: c2 :: rest =>
    if c = '`' then
      if c2 = '`' then splitSqlAux .backtick (buf ++ [c, c2]) stmts rest
      else splitSqlAux .top (buf ++ [c]) stmts (c2 :: rest)
    else splitSqlAux .backtick (buf ++ [c]) stmts (c2 :: rest)
  | .top, buf, stmts, c :: c2 :: rest =>
    if c = '-' ∧ c2 = '-' then splitSqlAux .lineC (buf ++ [c, c2]) stmts rest
    else if c = '/' ∧ c2 = '*' then splitSqlAux .blockC (buf ++ [c, c2]) stmts rest
    else if c = '\'' then splitSqlAux .single (buf ++ [c]) stmts (c2 :: rest)
    else if c = '"' then splitSqlAux .double (buf ++ [c]) stmts (c2 :: rest)
    else if c = '`' then splitSqlAux .backtick (buf ++ [c]) stmts (c2 :: rest)
    else if c = ';' then splitSqlAux .top [] (flushBuf buf stmts) (c2 :: rest)
    else splitSqlAux .top (buf ++ [c]) stmts (c2 :: rest)

/-- `split_sql_statements` (branch_cdc.py lines 302-377). -/
def split_sql_statements (s : String) : List String :=
  (splitSqlAux .top [] [] s.data).map String.mk

/-- Specification-side rendering of §4.5: the ordered list of statement
strings obtained by cutting the input exactly at its top-level `;`
boundaries, trimming each piece, and dropping empty pieces. -/
def splitStatementsSpec (s : String) : List String :=
  (((splitTopAux .top s.data).map pyStrip).filter (fun l => l ≠ [])).map String.mk


/-! ## Lexer lemmas: step equations -/

lemma consHead_ne_nil (c : Char) (r : List (List Char)) : consHead c r ≠ [] := by
  cases r <;> simp [consHead]

lemma consHead_headI (c : Char) (r : List (List Char)) :
    (consHead c r).headI = c :: r.headI := by
  cases r <;> rfl

lemma consHead_tail (c : Char) (r : List (List Char)) :
    (consHead c r).tail = r.tail := by
  cases r <;> simp [consHead]

lemma consHead_inj {c : Char} {r : List (List Char)} {x : List Char}
    (hne : r ≠ []) (h : consHead c r = [c :: x]) : r = [x] := by
  cases r with
  | nil => exact absurd rfl hne
  | cons s ss =>
    simp [consHead] at h
    simp [h.1, h.2]

lemma splitTopAux_nil (m : LexMode) : splitTopAux m [] = [[]] := rfl

lemma splitTopAux_semi (rest : List Char) :
    splitTopAux .top (';' :: rest) = [] :: splitTopAux .top rest := by
  rw [splitTopAux.eq_def]; simp

lemma splitTopAux_single {m : LexMode} {c : Char} (h : ¬(m = .top ∧ c = ';')) :
    splitTopAux m [c] = [[c]] := by
  rw [splitTopAux.eq_def]; simp [h]

lemma splitTopAux_step_one {m m' : LexMode} {c c2 : Char} (rest : List Char)
    (h1 : ¬(m = .top ∧ c = ';')) (h2 : lexStep m c (some c2) = (m', false)) :
    splitTopAux m (c :: c2 :: rest) = consHead c (splitTopAux m' (c2 :: rest)) := by
  rw [splitTopAux.eq_def]; simp [h1, h2]

lemma splitTopAux_step_two {m m' : LexMode} {c c2 : Char} (rest : List Char)
    (h1 : ¬(m = .top ∧ c = ';')) (h2 : lexStep m c (some c2) = (m', true)) :
    splitTopAux m (c :: c2 :: rest) = consHead c (consHead c2 (splitTopAux m' rest)) := by
  rw [splitTopAux.eq_def]; simp [h1, h2]

lemma endMode_nil (m : LexMode) : endMode m [] = m := rfl

lemma endMode_semi (rest : List Char) :
    endMode .top (';' :: rest) = endMode .top rest := by
  rw [endMode.eq_def]; simp

lemma endMode_single {m : LexMode} {c : Char} (h : ¬(m = .top ∧ c = ';')) :
    endMode m [c] = (lexStep m c none).1 := by
  rw [endMode.eq_def]; simp [h]

lemma endMode_step_one {m m' : LexMode} {c c2 : Char} (rest : List Char)
    (h1 : ¬(m = .top ∧ c = ';')) (h2 : lexStep m c (some c2) = (m', false)) :
    endMode m (c :: c2 :: rest) = endMode m' (c2 :: rest) := by
  rw [endMode.eq_def]; simp [h1, h2]

lemma endMode_step_two {m m' : LexMode} {c c2 : Char} (rest : List Char)
    (h1 : ¬(m = .top ∧ c = ';')) (h2 : lexStep m c (some c2) = (m', true)) :
    endMode m (c :: c2 :: rest) = endMode m' rest := by
  rw [endMode.eq_def]; simp [h1, h2]

lemma splitTopAux_ne_nil (m : LexMode) (cs : List Char) : splitTopAux m cs ≠ [] := by
  cases cs with
  | nil => simp [splitTopAux]
  | cons c rest =>
    by_cases h1 : m = .top ∧ c = ';'
    · obtain ⟨hm, hc⟩ := h1; subst hm; subst hc; rw [splitTopAux_semi]; simp
    · cases rest with
      | nil => rw [splitTopAux_single h1]; simp
      | cons c2 rest2 =>
        rcases h2 : lexStep m c (some c2) with ⟨m', b⟩
        cases b
        · rw [splitTopAux_step_one rest2 h1 h2]; exact consHead_ne_nil _ _
        · rw [splitTopAux_step_two rest2 h1 h2]; exact consHead_ne_nil _ _

/-- A two-character consumption needs a lookahead character. -/
lemma lexStep_none_snd (m : LexMode) (c : Char) : (lexStep m c none).2 = false := by
  cases m <;> simp [lexStep] <;> split_ifs <;> rfl

/-! ## Bridge: the Python lexer implements the specification splitter -/

/-- Graft a pending statement buffer onto the first remaining segment. -/
def prependSeg (buf : List Char) : List (List Char) → List (List Char)
  | [] => [buf]
  | s :: ss => (buf ++ s) :: ss

/-- Statements still to be produced given the pending buffer `buf`, the
statements already emitted `stmts`, and the raw segments `segs` of the
remaining input: each segment is trimmed and empty results are dropped. -/
def finishSegs (buf : List Char) (stmts segs : List (List Char)) : List (List Char) :=
  stmts ++ ((prependSeg buf segs).map pyStrip).filter (fun s => s ≠ [])

lemma flushBuf_nil (stmts : List (List Char)) : flushBuf [] stmts = stmts := by
  simp [flushBuf, pyStrip]

lemma finishSegs_consHead (buf : List Char) (stmts : List (List Char)) (c : Char)
    (segs : List (List Char)) :
    finishSegs buf stmts (consHead c segs) = finishSegs (buf ++ [c]) stmts segs := by
  cases segs <;> simp [finishSegs, prependSeg, consHead]

lemma finishSegs_single (buf : List Char) (stmts : List (List Char)) (x : List Char) :
    finishSegs buf stmts [x] = flushBuf (buf ++ x) stmts := by
  by_cases hx : pyStrip (buf ++ x) = [] <;>
    simp [finishSegs, prependSeg, flushBuf, hx]

lemma pyStrip_nil : pyStrip [] = [] := by simp [pyStrip]

lemma finishSegs_semi (buf : List Char) (stmts segs : List (List Char)) :
    finishSegs buf stmts ([] :: segs) = finishSegs [] (flushBuf buf stmts) segs := by
  cases segs with
  | nil =>
    by_cases hb : pyStrip buf = [] <;>
      simp [finishSegs, prependSeg, flushBuf, pyStrip_nil, hb]
  | cons s ss =>
    by_cases hb : pyStrip buf = [] <;> simp [finishSegs, prependSeg, flushBuf, hb]

lemma splitSql_bridge_aux : ∀ (n : Nat) (cs : List Char), cs.length ≤ n →
    ∀ (m : LexMode) (buf : List Char) (stmts : List (List Char)),
    splitSqlAux m buf stmts cs = finishSegs buf stmts (splitTopAux m cs) := by
  intro n
  induction n with
  | zero =>
    intro cs h m buf stmts
    have hnil : cs = [] := List.eq_nil_of_length_eq_zero (Nat.le_zero.mp h)
    subst hnil
    rw [splitTopAux_nil, finishSegs_single]
    simp [splitSqlAux]
  | succ n ih =>
    intro cs h m buf stmts
    cases cs with
    | nil =>
      rw [splitTopAux_nil, finishSegs_single]
      simp [splitSqlAux]
    | cons c rest0 =>
      cases rest0 with
      | nil =>
        by_cases h1 : m = .top ∧ c = ';'
        · obtain ⟨hm, hc⟩ := h1; subst hm; subst hc
          rw [splitTopAux_semi, finishSegs_semi, splitTopAux_nil, finishSegs_single]
          simp [splitSqlAux, flushBuf_nil]
        · rw [splitTopAux_single h1, finishSegs_single, splitSqlAux, if_neg h1]
      | cons c2 rest =>
        have hlen2 : (c2 :: rest).length ≤ n := by simp at h ⊢; omega
        cases m with
        | lineC =>
          have h1 : ¬(LexMode.lineC = .top ∧ c = ';') := by simp
          by_cases hc : c = '\n'
          · subst hc
            have hs : lexStep .lineC '\n' (some c2) = (.top, false) := by simp [lexStep]
            rw [splitTopAux_step_one rest h1 hs, finishSegs_consHead, splitSqlAux]
            simp only [if_pos rfl]
            exact ih _ hlen2 _ _ _
          · have hs : lexStep .lineC c (some c2) = (.lineC, false) := by simp [lexStep, hc]
            rw [splitTopAux_step_one rest h1 hs, finishSegs_consHead, splitSqlAux, if_neg hc]
            exact ih _ hlen2 _ _ _
        | blockC =>
          have h1 : ¬(LexMode.blockC = .top ∧ c = ';') := by simp
          by_cases hc : c = '*' ∧ c2 = '/'
          · obtain ⟨hc1, hc2⟩ := hc; subst hc1; subst hc2
            have hs : lexStep .blockC '*' (some '/') = (.top, true) := by simp [lexStep]
            rw [splitTopAux_step_two rest h1 hs, finishSegs_consHead, finishSegs_consHead,
              splitSqlAux]
            simp only [if_pos (And.intro rfl rfl)]
            have hlen1 : rest.length ≤ n := by simp at h; omega
            rw [ih _ hlen1 _ _ _]
            simp
          · have hs : lexStep .blockC c (some c2) = (.blockC, false) := by simp [lexStep, hc]
            rw [splitTopAux_step_one rest h1 hs, finishSegs_consHead, splitSqlAux, if_neg hc]
            exact ih _ hlen2 _ _ _
        | single =>
          have h1 : ¬(LexMode.single = .top ∧ c = ';') := by simp
          by_cases hb : c = '\\'
          · subst hb
            have hs : lexStep .single '\\' (some c2) = (.single, true) := by simp [lexStep]
            rw [splitTopAux_step_two rest h1 hs, finishSegs_consHead, finishSegs_consHead,
              splitSqlAux]
            simp only [if_pos rfl]
            have hlen1 : rest.length ≤ n := by simp at h; omega
            rw [ih _ hlen1 _ _ _]
            simp
          · by_cases hq : c = '\''
            · subst hq
              by_cases hq2 : c2 = '\''
              · subst hq2
                have hs : lexStep .single '\'' (some '\'') = (.single, true) := by
                  simp [lexStep]
                rw [splitTopAux_step_two rest h1 hs, finishSegs_consHead, finishSegs_consHead,
                  splitSqlAux]
                simp only [if_neg hb, if_pos rfl]
                have hlen1 : rest.length ≤ n := by simp at h; omega
                rw [ih _ hlen1 _ _ _]
                simp
              · have hs : lexStep .single '\'' (some c2) = (.top, false) := by
                  simp [lexStep, hq2]
                rw [splitTopAux_step_one rest h1 hs, finishSegs_consHead, splitSqlAux]
                simp only [if_neg hb, if_pos rfl, if_neg hq2]
                exact ih _ hlen2 _ _ _
            · have hs : lexStep .single c (some c2) = (.single, false) := by
                simp [lexStep, hb, hq]
              rw [splitTopAux_step_one rest h1 hs, finishSegs_consHead, splitSqlAux,
                if_neg hb, if_neg hq]
              exact ih _ hlen2 _ _ _
        | double =>
          have h1 : ¬(LexMode.double = .top ∧ c = ';') := by simp
          by_cases hb : c = '\\'
          · subst hb
            have hs : lexStep .double '\\' (some c2) = (.double, true) := by simp [lexStep]
            rw [splitTopAux_step_two rest h1 hs, finishSegs_consHead, finishSegs_consHead,
              splitSqlAux]
            simp only [if_pos rfl]
            have hlen1 : rest.length ≤ n := by simp at h; omega
            rw [ih _ hlen1 _ _ _]
            simp
          · by_cases hq : c = '"'
            · subst hq
              by_cases hq2 : c2 = '"'
              · subst hq2
                have hs : lexStep .double '"' (some '"') = (.double, true) := by
                  simp [lexStep]
                rw [splitTopAux_step_two rest h1 hs, finishSegs_consHead, finishSegs_consHead,
                  splitSqlAux]
                simp only [if_neg hb, if_pos rfl]
                have hlen1 : rest.length ≤ n := by simp at h; omega
                rw [ih _ hlen1 _ _ _]
                simp
              · have hs : lexStep .double '"' (some c2) = (.top, false) := by
                  simp [lexStep, hq2]
                rw [splitTopAux_step_one rest h1 hs, finishSegs_consHead, splitSqlAux]
                simp only [if_neg hb, if_pos rfl, if_neg hq2]
                exact ih _ hlen2 _ _ _
            · have hs : lexStep .double c (some c2) = (.double, false) := by
                simp [lexStep, hb, hq]
              rw [splitTopAux_step_one rest h1 hs, finishSegs_consHead, splitSqlAux,
                if_neg hb, if_neg hq]
              exact ih _ hlen2 _ _ _
        | backtick =>
          have h1 : ¬(LexMode.backtick = .top ∧ c = ';') := by simp
          by_cases hq : c = '`'
          · subst hq
            by_cases hq2 : c2 = '`'
            · subst hq2
              have hs : lexStep .backtick '`' (some '`') = (.backtick, true) := by
                simp [lexStep]
              rw [splitTopAux_step_two rest h1 hs, finishSegs_consHead, finishSegs_consHead,
                splitSqlAux]
              simp only [if_pos rfl]
              have hlen1 : rest.length ≤ n := by simp at h; omega
              rw [ih _ hlen1 _ _ _]
              simp
            · have hs : lexStep .backtick '`' (some c2) = (.top, false) := by
                simp [lexStep, hq2]
              rw [splitTopAux_step_one rest h1 hs, finishSegs_consHead, splitSqlAux]
              simp only [if_pos rfl, if_neg hq2]
              exact ih _ hlen2 _ _ _
          · have hs : lexStep .backtick c (some c2) = (.backtick, false) := by
              simp [lexStep, hq]
            rw [splitTopAux_step_one rest h1 hs, finishSegs_consHead, splitSqlAux, if_neg hq]
            exact ih _ hlen2 _ _ _
        | top =>
          by_cases hd : c = '-' ∧ c2 = '-'
          · obtain ⟨hd1, hd2⟩ := hd; subst hd1; subst hd2
            have h1 : ¬(LexMode.top = .top ∧ '-' = ';') := by simp
            have hs : lexStep .top '-' (some '-') = (.lineC, true) := by simp [lexStep]
            rw [splitTopAux_step_two rest h1 hs, finishSegs_consHead, finishSegs_consHead,
              splitSqlAux]
            simp only [if_pos (And.intro rfl rfl)]
            have hlen1 : rest.length ≤ n := by simp at h; omega
            rw [ih _ hlen1 _ _ _]
            simp
          · by_cases hbc : c = '/' ∧ c2 = '*'
            · obtain ⟨hd1, hd2⟩ := hbc; subst hd1; subst hd2
              have h1 : ¬(LexMode.top = .top ∧ '/' = ';') := by simp
              have hs : lexStep .top '/' (some '*') = (.blockC, true) := by simp [lexStep]
              rw [splitTopAux_step_two rest h1 hs, finishSegs_consHead, finishSegs_consHead,
                splitSqlAux]
              simp only [if_neg hd, if_pos (And.intro rfl rfl)]
              have hlen1 : rest.length ≤ n := by simp at h; omega
              rw [ih _ hlen1 _ _ _]
              simp
            · by_cases hq : c = '\''
              · subst hq
                have h1 : ¬(LexMode.top = .top ∧ '\'' = ';') := by simp
                have hs : lexStep .top '\'' (some c2) = (.single, false) := by
                  simp [lexStep, hd, hbc]
                rw [splitTopAux_step_one rest h1 hs, finishSegs_consHead, splitSqlAux]
                simp only [if_neg hd, if_neg hbc, if_pos rfl]
                exact ih _ hlen2 _ _ _
              · by_cases hq2 : c = '"'
                · subst hq2
                  have h1 : ¬(LexMode.top = .top ∧ '"' = ';') := by simp
                  have hs : lexStep .top '"' (some c2) = (.double, false) := by
                    simp [lexStep, hd, hbc]
                  rw [splitTopAux_step_one rest h1 hs, finishSegs_consHead, splitSqlAux]
                  simp only [if_neg hd, if_neg hbc, if_neg hq, if_pos rfl]
                  exact ih _ hlen2 _ _ _
                · by_cases hq3 : c = '`'
                  · subst hq3
                    have h1 : ¬(LexMode.top = .top ∧ '`' = ';') := by simp
                    have hs : lexStep .top '`' (some c2) = (.backtick, false) := by
                      simp [lexStep, hd, hbc]
                    rw [splitTopAux_step_one rest h1 hs, finishSegs_consHead, splitSqlAux]
                    simp only [if_neg hd, if_neg hbc, if_neg hq, if_neg hq2, if_pos rfl]
                    exact ih _ hlen2 _ _ _
                  · by_cases hsemi : c = ';'
                    · subst hsemi
                      rw [splitTopAux_semi, finishSegs_semi, splitSqlAux]
                      simp only [if_neg hd, if_neg hbc, if_neg hq, if_neg hq2, if_neg hq3,
                        if_pos rfl]
                      exact ih _ hlen2 _ _ _
                    · have h1 : ¬(LexMode.top = .top ∧ c = ';') := by simp [hsemi]
                      have hs : lexStep .top c (some c2) = (.top, false) := by
                        simp [lexStep, hd, hbc, hq, hq2, hq3]
                      rw [splitTopAux_step_one rest h1 hs, finishSegs_consHead, splitSqlAux,
                        if_neg hd, if_neg hbc, if_neg hq, if_neg hq2, if_neg hq3, if_neg hsemi]
                      exact ih _ hlen2 _ _ _

/-- The Python lexer equals the specification splitter (helper form). -/
lemma split_eq_spec (s : String) : split_sql_statements s = splitStatementsSpec s := by
  have hb := splitSql_bridge_aux s.data.length s.data (le_refl _) .top [] []
  rw [split_sql_statements, splitStatementsSpec, hb, finishSegs]
  rcases hseg : splitTopAux .top s.data with _ | ⟨t, ts⟩
  · exact absurd hseg (splitTopAux_ne_nil _ _)
  · simp [prependSeg]

/-! ## Round-trip machinery (claim C6)

A non-consuming lexer step does not depend on the lookahead, and a `;`
lookahead behaves like no lookahead unless the step ends inside a quote on
a backslash. -/

lemma lexStep_false_none {m m' : LexMode} {c : Char} {x : Option Char}
    (h : lexStep m c x = (m', false)) : lexStep m c none = (m', false) := by
  cases x with
  | none => exact h
  | some d =>
    cases m <;> simp only [lexStep] at h ⊢ <;> split_ifs at h ⊢ <;> simp_all

lemma lexStep_semi_none {m : LexMode} {c : Char}
    (h : lexStep m c none = (.top, false)) : lexStep m c (some ';') = (.top, false) := by
  cases m <;> simp only [lexStep] at h ⊢ <;> split_ifs at h ⊢ <;> simp_all

/-- The first segment produced by the splitter is a prefix of the input. -/
lemma splitTop_headI_prefix : ∀ (n : Nat) (cs : List Char), cs.length ≤ n →
    ∀ m, ∃ w, cs = (splitTopAux m cs).headI ++ w := by
  intro n
  induction n with
  | zero =>
    intro cs h m
    have hnil : cs = [] := List.eq_nil_of_length_eq_zero (Nat.le_zero.mp h)
    subst hnil
    exact ⟨[], rfl⟩
  | succ n ih =>
    intro cs h m
    cases cs with
    | nil => exact ⟨[], rfl⟩
    | cons c rest0 =>
      by_cases h1 : m = .top ∧ c = ';'
      · obtain ⟨hm, hc⟩ := h1; subst hm; subst hc
        rw [splitTopAux_semi]
        exact ⟨';' :: rest0, rfl⟩
      · cases rest0 with
        | nil =>
          rw [splitTopAux_single h1]
          exact ⟨[], rfl⟩
        | cons c2 rest =>
          rcases hs : lexStep m c (some c2) with ⟨m', b⟩
          cases b
          · rw [splitTopAux_step_one rest h1 hs, consHead_headI]
            obtain ⟨w, hw⟩ := ih (c2 :: rest) (by simp at h ⊢; omega) m'
            exact ⟨w, by rw [List.cons_append, ← hw]⟩
          · rw [splitTopAux_step_two rest h1 hs, consHead_headI, consHead_headI]
            obtain ⟨w, hw⟩ := ih rest (by simp at h; omega) m'
            exact ⟨w, by rw [List.cons_append, List.cons_append, ← hw]⟩

/-- Every segment the splitter produces is itself a single segment:
re-lexing it from the initial mode finds no further top-level `;`. -/
lemma segs_single : ∀ (n : Nat) (cs : List Char), cs.length ≤ n → ∀ m,
    splitTopAux m ((splitTopAux m cs).headI) = [(splitTopAux m cs).headI] ∧
    ∀ u ∈ (splitTopAux m cs).tail, splitTopAux .top u = [u] := by
  intro n
  induction n with
  | zero =>
    intro cs h m
    have hnil : cs = [] := List.eq_nil_of_length_eq_zero (Nat.le_zero.mp h)
    subst hnil
    refine ⟨by simp [splitTopAux], ?_⟩
    intro u hu
    simp [splitTopAux] at hu
  | succ n ih =>
    intro cs h m
    cases cs with
    | nil =>
      refine ⟨by simp [splitTopAux], ?_⟩
      intro u hu
      simp [splitTopAux] at hu
    | cons c rest0 =>
      by_cases h1 : m = .top ∧ c = ';'
      · obtain ⟨hm, hc⟩ := h1; subst hm; subst hc
        rw [splitTopAux_semi]
        obtain ⟨hh, ht⟩ := ih rest0 (by simp at h; omega) .top
        refine ⟨by simp [splitTopAux], ?_⟩
        intro u hu
        simp only [List.tail_cons] at hu
        rcases hr : splitTopAux .top rest0 with _ | ⟨t, ts⟩
        · exact absurd hr (splitTopAux_ne_nil _ _)
        · rw [hr] at hu hh ht
          rcases List.mem_cons.mp hu with rfl | hmem
          · simpa using hh
          · exact ht u hmem
      · cases rest0 with
        | nil =>
          rw [splitTopAux_single h1]
          refine ⟨?_, ?_⟩
          · simpa using splitTopAux_single h1
          · intro u hu; simp at hu
        | cons c2 rest =>
          rcases hs : lexStep m c (some c2) with ⟨m', b⟩
          cases b
          · obtain ⟨hh, ht⟩ := ih (c2 :: rest) (by simp at h ⊢; omega) m'
            rw [splitTopAux_step_one rest h1 hs, consHead_headI, consHead_tail]
            refine ⟨?_, ht⟩
            rcases hhead : (splitTopAux m' (c2 :: rest)).headI with _ | ⟨h0, t0⟩
            · rw [splitTopAux_single h1]
            · -- the first segment is a prefix of c2 :: rest, so its head is c2
              obtain ⟨w, hw⟩ := splitTop_headI_prefix (c2 :: rest).length (c2 :: rest)
                (le_refl _) m'
              rw [hhead] at hw hh
              rw [List.cons_append] at hw
              have hc2 : h0 = c2 := by
                have := hw
                injection this with hx hy
                exact hx.symm
              subst hc2
              rw [splitTopAux_step_one t0 h1 hs, hh]
              simp [consHead]
          · obtain ⟨hh, ht⟩ := ih rest (by simp at h; omega) m'
            rw [splitTopAux_step_two rest h1 hs, consHead_headI, consHead_headI,
              consHead_tail, consHead_tail]
            refine ⟨?_, ht⟩
            rcases hrh : (splitTopAux m' rest).headI with _ | ⟨h0, t0⟩
            · rw [hrh] at hh
              rw [show (c :: c2 :: ([] : List Char)) = [c, c2] from rfl]
              rw [splitTopAux.eq_def]
              simp [h1, hs, splitTopAux, consHead]
            · rw [hrh] at hh
              rw [splitTopAux_step_two (h0 :: t0) h1 hs, hh]
              simp [consHead]

/-- Single-segment property for every member of the splitter output. -/
lemma splitTop_mem_single {cs u : List Char} (hu : u ∈ splitTopAux .top cs) :
    splitTopAux .top u = [u] := by
  obtain ⟨hh, ht⟩ := segs_single cs.length cs (le_refl _) .top
  rcases hr : splitTopAux .top cs with _ | ⟨t, ts⟩
  · exact absurd hr (splitTopAux_ne_nil _ _)
  · rw [hr] at hu hh ht
    rcases List.mem_cons.mp hu with rfl | hmem
    · simpa using hh
    · exact ht u hmem

/-- Appending `';' :: y` after a single-segment stream `x` that ends at
top level splits exactly at the appended separator. -/
lemma splitTop_append_semi : ∀ (n : Nat) (x : List Char), x.length ≤ n →
    ∀ (m : LexMode) (y : List Char),
    splitTopAux m x = [x] → endMode m x = .top →
    splitTopAux m (x ++ ';' :: y) = x :: splitTopAux .top y := by
  intro n
  induction n with
  | zero =>
    intro x h m y h1 h2
    have hnil : x = [] := List.eq_nil_of_length_eq_zero (Nat.le_zero.mp h)
    subst hnil
    rw [endMode_nil] at h2
    subst h2
    rw [List.nil_append, splitTopAux_semi]
  | succ n ih =>
    intro x h m y h1 h2
    cases x with
    | nil =>
      rw [endMode_nil] at h2
      subst h2
      rw [List.nil_append, splitTopAux_semi]
    | cons c x' =>
      have hne : ¬(m = .top ∧ c = ';') := by
        rintro ⟨hm, hc⟩; subst hm; subst hc
        rw [splitTopAux_semi] at h1
        simp at h1
      cases x' with
      | nil =>
        rw [endMode_single hne] at h2
        rcases hs0 : lexStep m c none with ⟨m0, b0⟩
        have hb0 : b0 = false := by
          have hn := lexStep_none_snd m c
          rw [hs0] at hn
          exact hn
        subst hb0
        rw [hs0] at h2
        simp only at h2
        subst h2
        have hs' : lexStep m c (some ';') = (.top, false) := lexStep_semi_none hs0
        rw [List.cons_append, List.nil_append, splitTopAux_step_one y hne hs',
          splitTopAux_semi]
        simp [consHead]
      | cons c2 x'' =>
        rcases hs : lexStep m c (some c2) with ⟨m', b⟩
        cases b
        · rw [splitTopAux_step_one x'' hne hs] at h1
          have hr : splitTopAux m' (c2 :: x'') = [c2 :: x''] :=
            consHead_inj (splitTopAux_ne_nil _ _) h1
          rw [endMode_step_one x'' hne hs] at h2
          have hrec := ih (c2 :: x'') (by simp at h ⊢; omega) m' y hr h2
          rw [List.cons_append, List.cons_append,
            splitTopAux_step_one (x'' ++ ';' :: y) hne hs]
          rw [show c2 :: (x'' ++ ';' :: y) = (c2 :: x'') ++ ';' :: y from rfl, hrec]
          simp [consHead]
        · rw [splitTopAux_step_two x'' hne hs] at h1
          have hr1 : consHead c2 (splitTopAux m' x'') = [c2 :: x''] :=
            consHead_inj (consHead_ne_nil _ _) h1
          have hr : splitTopAux m' x'' = [x''] :=
            consHead_inj (splitTopAux_ne_nil _ _) hr1
          rw [endMode_step_two x'' hne hs] at h2
          have hrec := ih x'' (by simp at h; omega) m' y hr h2
          rw [List.cons_append, List.cons_append,
            splitTopAux_step_two (x'' ++ ';' :: y) hne hs, hrec]
          simp [consHead]

/-- A prefix of a single-segment stream is a single segment. -/
lemma splitTop_prefix_single : ∀ (n : Nat) (v : List Char), v.length ≤ n →
    ∀ (m : LexMode) (w : List Char),
    splitTopAux m (v ++ w) = [v ++ w] → splitTopAux m v = [v] := by
  intro n
  induction n with
  | zero =>
    intro v h m w _
    have hnil : v = [] := List.eq_nil_of_length_eq_zero (Nat.le_zero.mp h)
    subst hnil
    simp [splitTopAux]
  | succ n ih =>
    intro v h m w hvw
    cases v with
    | nil => simp [splitTopAux]
    | cons c v' =>
      have hne : ¬(m = .top ∧ c = ';') := by
        rintro ⟨hm, hc⟩; subst hm; subst hc
        rw [List.cons_append, splitTopAux_semi] at hvw
        simp at hvw
      cases v' with
      | nil => exact splitTopAux_single hne
      | cons c2 v'' =>
        rcases hs : lexStep m c (some c2) with ⟨m', b⟩
        cases b
        · rw [List.cons_append, List.cons_append,
            splitTopAux_step_one (v'' ++ w) hne hs] at hvw
          have hr : splitTopAux m' (c2 :: (v'' ++ w)) = [c2 :: (v'' ++ w)] :=
            consHead_inj (splitTopAux_ne_nil _ _) hvw
          have hr' : splitTopAux m' ((c2 :: v'') ++ w) = [(c2 :: v'') ++ w] := by
            simpa using hr
          have hrec := ih (c2 :: v'') (by simp at h ⊢; omega) m' w hr'
          rw [splitTopAux_step_one v'' hne hs, hrec]
          simp [consHead]
        · rw [List.cons_append, List.cons_append,
            splitTopAux_step_two (v'' ++ w) hne hs] at hvw
          have hr : splitTopAux m' (v'' ++ w) = [v'' ++ w] :=
            consHead_inj (splitTopAux_ne_nil _ _)
              (consHead_inj (consHead_ne_nil _ _) hvw)
          have hrec := ih v'' (by simp at h; omega) m' w hr
          rw [splitTopAux_step_two v'' hne hs, hrec]
          simp [consHead]

/-! ## Trimming preserves the single-segment property -/

lemma lexStep_space {c : Char} (hs : pyIsSpace c = true) (x : Option Char) :
    lexStep .top c x = (.top, false) := by
  have hc : c = ' ' ∨ c = '\t' ∨ c = '\n' ∨ c = '\r' ∨ c = '\x0b' ∨ c = '\x0c' := by
    simpa [pyIsSpace, or_assoc] using hs
  rcases hc with rfl | rfl | rfl | rfl | rfl | rfl <;> simp [lexStep]

lemma splitTop_cons_space {c : Char} (hs : pyIsSpace c = true) (v : List Char) :
    splitTopAux .top (c :: v) = consHead c (splitTopAux .top v) := by
  have hsemi : ¬(LexMode.top = .top ∧ c = ';') := by
    rintro ⟨-, rfl⟩
    simp [pyIsSpace] at hs
  cases v with
  | nil => rw [splitTopAux_single hsemi]; simp [consHead, splitTopAux]
  | cons c2 v' => exact splitTopAux_step_one v' hsemi (lexStep_space hs (some c2))

lemma splitTop_dropWhile_single : ∀ (v : List Char),
    splitTopAux .top v = [v] →
    splitTopAux .top (v.dropWhile pyIsSpace) = [v.dropWhile pyIsSpace] := by
  intro v
  induction v with
  | nil => intro h; simpa using h
  | cons c v' ih =>
    intro h
    by_cases hs : pyIsSpace c = true
    · rw [List.dropWhile_cons, if_pos hs]
      apply ih
      rw [splitTop_cons_space hs] at h
      exact consHead_inj (splitTopAux_ne_nil _ _) h
    · rw [List.dropWhile_cons, if_neg hs]
      exact h

lemma dropLeading_eq_strip_append (l : List Char) :
    l.dropWhile pyIsSpace =
      pyStrip l ++ ((l.dropWhile pyIsSpace).reverse.takeWhile pyIsSpace).reverse := by
  conv_lhs =>
    rw [← List.reverse_reverse (l.dropWhile pyIsSpace),
      ← List.takeWhile_append_dropWhile (p := pyIsSpace)
        (l := (l.dropWhile pyIsSpace).reverse)]
  rw [List.reverse_append]
  rfl

/-- Trimming a single-segment stream keeps it a single segment. -/
lemma splitTop_strip_single {u : List Char} (h : splitTopAux .top u = [u]) :
    splitTopAux .top (pyStrip u) = [pyStrip u] := by
  have h1 := splitTop_dropWhile_single u h
  rw [dropLeading_eq_strip_append u] at h1
  exact splitTop_prefix_single (pyStrip u).length (pyStrip u) (le_refl _) .top _ h1

lemma dropWhile_idem (p : Char → Bool) (l : List Char) :
    (l.dropWhile p).dropWhile p = l.dropWhile p := by
  induction l with
  | nil => rfl
  | cons c l' ih =>
    by_cases hc : p c = true
    · rw [List.dropWhile_cons, if_pos hc, ih]
    · rw [List.dropWhile_cons, if_neg hc, List.dropWhile_cons, if_neg hc]

lemma dropWhile_head_false {p : Char → Bool} {l : List Char} {c : Char} {t : List Char}
    (h : l.dropWhile p = c :: t) : p c = false := by
  induction l with
  | nil => simp at h
  | cons a l' ih =>
    rw [List.dropWhile_cons] at h
    split_ifs at h with ha
    · exact ih h
    · injection h with h1 _
      subst h1
      simpa using ha

lemma pyStrip_idem (l : List Char) : pyStrip (pyStrip l) = pyStrip l := by
  have hlead : (pyStrip l).dropWhile pyIsSpace = pyStrip l := by
    rcases hh : pyStrip l with _ | ⟨c, t⟩
    · rfl
    · have hd := dropLeading_eq_strip_append l
      rw [hh, List.cons_append] at hd
      have hc : pyIsSpace c = false := dropWhile_head_false hd
      rw [List.dropWhile_cons, if_neg (by simp [hc])]
  calc pyStrip (pyStrip l)
      = (((pyStrip l).dropWhile pyIsSpace).reverse.dropWhile pyIsSpace).reverse := rfl
    _ = ((pyStrip l).reverse.dropWhile pyIsSpace).reverse := by rw [hlead]
    _ = pyStrip l := by
        show ((((l.dropWhile pyIsSpace).reverse.dropWhile pyIsSpace).reverse).reverse.dropWhile
            pyIsSpace).reverse = _
        rw [List.reverse_reverse, dropWhile_idem]
        rfl

/-! ## The round-trip core -/

/-- Re-joining a statement batch with `';'` at the character level. -/
def joinSemiData : List (List Char) → List Char
  | [] => []
  | [x] => x
  | x :: y :: r => x ++ ';' :: joinSemiData (y :: r)

lemma roundtrip_core : ∀ (l : List (List Char)),
    (∀ t ∈ l, t ≠ [] ∧ pyStrip t = t ∧ splitTopAux .top t = [t]) →
    (∀ t ∈ l.dropLast, endMode .top t = .top) →
    ((splitTopAux .top (joinSemiData l)).map pyStrip).filter (fun s => s ≠ []) = l := by
  intro l
  induction l with
  | nil =>
    intro _ _
    simp [joinSemiData, splitTopAux, pyStrip_nil]
  | cons t l' ih =>
    intro hall hend
    cases l' with
    | nil =>
      obtain ⟨hne, hstrip, hsingle⟩ := hall t (by simp)
      simp only [joinSemiData, hsingle]
      simp [hstrip, hne]
    | cons t2 l'' =>
      obtain ⟨hne, hstrip, hsingle⟩ := hall t (by simp)
      have hendt : endMode .top t = .top := by
        apply hend t
        rw [List.dropLast_cons₂]
        simp
      have hjoin : joinSemiData (t :: t2 :: l'') = t ++ ';' :: joinSemiData (t2 :: l'') :=
        rfl
      have hrec := ih (fun u hu => hall u (by simp [hu])) (fun u hu => hend u (by
        rw [List.dropLast_cons₂]; simp [hu]))
      rw [hjoin, splitTop_append_semi t.length t (le_refl _) .top _ hsingle hendt,
        List.map_cons, List.filter_cons, hstrip, hrec]
      simp [hne]

/-! ## String-level assembly -/

lemma joinSemiData_cons_append (x y : List Char) (r : List (List Char)) :
    joinSemiData ((x ++ ';' :: y) :: r) = x ++ ';' :: joinSemiData (y :: r) := by
  cases r with
  | nil => simp [joinSemiData]
  | cons z r' => simp [joinSemiData]

lemma intercalate_go_data : ∀ (as : List String) (acc : String),
    (String.intercalate.go acc ";" as).data =
      joinSemiData (acc.data :: as.map String.data) := by
  intro as
  induction as with
  | nil => intro acc; rfl
  | cons a as' ih =>
    intro acc
    rw [show String.intercalate.go acc ";" (a :: as') =
        String.intercalate.go (acc ++ ";" ++ a) ";" as' from rfl]
    rw [ih]
    have hd : (acc ++ ";" ++ a).data = acc.data ++ ';' :: a.data := by
      rw [String.data_append, String.data_append]
      simp
    rw [hd, List.map_cons, joinSemiData_cons_append]
    rfl

lemma intercalate_semi_data (l : List String) :
    (String.intercalate ";" l).data = joinSemiData (l.map String.data) := by
  cases l with
  | nil => rfl
  | cons a as => exact intercalate_go_data as a

/-- Round-trip helper: re-joining the split statements with `';'` and
splitting again is the identity, provided every statement except the last
ends at top level when re-lexed on its own. -/
lemma split_roundtrip (s : String)
    (h : ∀ t ∈ (split_sql_statements s).dropLast, endMode .top t.data = .top) :
    split_sql_statements (String.intercalate ";" (split_sql_statements s)) =
      split_sql_statements s := by
  set L : List (List Char) :=
    ((splitTopAux .top s.data).map pyStrip).filter (fun x => x ≠ []) with hL
  have hss : split_sql_statements s = L.map String.mk := by
    rw [split_eq_spec s]
    rfl
  have hall : ∀ t ∈ L, t ≠ [] ∧ pyStrip t = t ∧ splitTopAux .top t = [t] := by
    intro t ht
    have ht' := ht
    rw [hL, List.mem_filter] at ht'
    obtain ⟨htm, htne⟩ := ht'
    rw [List.mem_map] at htm
    obtain ⟨u, hu, hut⟩ := htm
    have htne' : t ≠ [] := by simpa using htne
    subst hut
    exact ⟨htne', pyStrip_idem u, splitTop_strip_single (splitTop_mem_single hu)⟩
  have hend : ∀ t ∈ L.dropLast, endMode .top t = .top := by
    intro t ht
    have hmem : String.mk t ∈ (split_sql_statements s).dropLast := by
      rw [hss, ← List.map_dropLast]
      exact List.mem_map_of_mem _ ht
    simpa using h (String.mk t) hmem
  have hcore := roundtrip_core L hall hend
  have hdata : (String.intercalate ";" (split_sql_statements s)).data = joinSemiData L := by
    rw [hss, intercalate_semi_data, List.map_map]
    rw [show (String.data ∘ String.mk) = id from rfl, List.map_id]
  rw [split_eq_spec (String.intercalate ";" (split_sql_statements s)), splitStatementsSpec,
    hdata, hcore, hss]

/-! ## Claims C1 and C6 -/

/-- C1: for every input SQL text, `split_sql_statements` returns the
statements split exactly at top-level `;` boundaries: a `;` inside a
single-, double-, or backtick-quoted string (honouring backslash escaping
and doubled-quote escaping), inside a `--` line comment, or inside a
`/* */` block comment is never treated as a separator, and every `;`
outside those contexts is — formally, the function agrees with the
specification splitter `splitStatementsSpec`, which cuts exactly at the
`lexStep`-top-level semicolons, trims each piece, and drops empty
pieces. -/
theorem claimC1_split_at_top_level_semicolons (s : String) :
    split_sql_statements s = splitStatementsSpec s :=
  split_eq_spec s

/-- C6 counterexample: re-joining the split statements of
`"a --\n; b"` with `';'` and splitting again does not reproduce the
original statement list.  The first statement ends in a line comment whose
terminating newline was trimmed away, so the joining `';'` and the second
statement are swallowed by the comment. -/
theorem claimC6_roundtrip_counterexample :
    split_sql_statements
        (String.intercalate ";" (split_sql_statements "a --\n; b")) ≠
      split_sql_statements "a --\n; b" := by
  decide

/-- C6 (amended): the split/join round trip is stable — re-joining the
statements produced by `split_sql_statements` with `';'` and splitting the
result again yields the same list, including for batches with semicolons
embedded in quoted strings and comments — provided no produced statement
other than the last one ends inside an unterminated line comment
(equivalently: every non-final statement, re-lexed on its own, ends in
top-level mode). -/
theorem claimC6_roundtrip_amended (s : String)
    (h : ∀ t ∈ (split_sql_statements s).dropLast, endMode .top t.data = .top) :
    split_sql_statements (String.intercalate ";" (split_sql_statements s)) =
      split_sql_statements s :=
  split_roundtrip s h

theorem claimC6_roundtrip_witness :
    split_sql_statements
        (String.intercalate ";" (split_sql_statements "a; b'x;y' -- c\nd")) =
      split_sql_statements "a; b'x;y' -- c\nd" :=
  claimC6_roundtrip_amended "a; b'x;y' -- c\nd" (by decide)

/-! ## Watermark meta store (branch_cdc.py lines 29-30, 98-169)

A meta row holds `(task_id, watermark, created_at)`.  The watermark column
is `BIGINT UNSIGNED` but may be NULL; `WmVal.other` models a non-NULL
value that Python's `int()` rejects (the code defends against it). -/

def MAX_WATERMARKS : Nat := 4

inductive WmVal where
  | null
  | intv (i : Int)
  | other
deriving DecidableEq, Repr

structure MetaRow where
  task : String
  wm : WmVal
  created : Nat
deriving DecidableEq, Repr

/-- `ORDER BY created_at DESC`: newest first. -/
def newerFirst (a b : MetaRow) : Prop := b.created ≤ a.created

instance : DecidableRel newerFirst :=
  fun a b => inferInstanceAs (Decidable (b.created ≤ a.created))

instance : IsTotal MetaRow newerFirst := ⟨fun a b => Nat.le_total b.created a.created⟩

instance : IsTrans MetaRow newerFirst := ⟨fun _ _ _ h1 h2 => le_trans h2 h1⟩

/-- `SELECT watermark FROM meta WHERE task_id=%s AND watermark IS NOT NULL
ORDER BY created_at DESC` (line 150): filter, then sort newest first. -/
def metaQuery (rows : List MetaRow) (tid : String) : List MetaRow :=
  List.insertionSort newerFirst
    (rows.filter (fun r => r.task = tid ∧ r.wm ≠ WmVal.null))

/-- The row loop of `get_watermarks` (lines 153-162): skip a NULL value,
skip a value `int()` rejects, collect the rest in query order. -/
def collectWms : List MetaRow → List Int
  | [] => []
  | r :: rest =>
    match r.wm with
    | .null => collectWms rest
    | .other => collectWms rest
    | .intv i => i :: collectWms rest

/-- `get_watermarks` (branch_cdc.py lines 148-162).  `queryFails` models
the `except: return []` around the meta-table query. -/
def get_watermarks (queryFails : Bool) (rows : List MetaRow) (tid : String) : List Int :=
  if queryFails then [] else collectWms (metaQuery rows tid)

/-- Conversion the Python loop applies to each value. -/
def wmToInt : WmVal → Option Int
  | .null => none
  | .other => none
  | .intv i => some i

lemma collectWms_eq_filterMap (l : List MetaRow) :
    collectWms l = l.filterMap (fun r => wmToInt r.wm) := by
  induction l with
  | nil => rfl
  | cons r rest ih =>
    cases hw : r.wm <;> simp [collectWms, hw, ih, wmToInt, List.filterMap_cons]

/-- C10: `get_watermarks` is total at its public interface: a failing
meta-table query yields `[]` instead of propagating, and otherwise the
result is exactly the non-NULL, integer-convertible watermark values of
the task's rows, in newest-first (created-at descending) order, silently
skipping NULL and non-convertible values. -/
theorem claimC10_get_watermarks_total (queryFails : Bool) (rows : List MetaRow)
    (tid : String) :
    get_watermarks queryFails rows tid =
      (if queryFails then []
       else (List.insertionSort newerFirst
           (rows.filter (fun r => r.task = tid ∧ r.wm ≠ WmVal.null))).filterMap
         (fun r => wmToInt r.wm)) ∧
    (metaQuery rows tid).Sorted newerFirst := by
  constructor
  · by_cases hq : queryFails = true
    · simp [get_watermarks, hq]
    · simp only [Bool.not_eq_true] at hq
      simp [get_watermarks, hq, metaQuery, collectWms_eq_filterMap]
  · exact List.sorted_insertionSort newerFirst _

/-! ## Watermark pruning (claim C9) -/

/-- SQL `watermark = w` against a NULL or non-numeric column value is not
satisfied. -/
def wmEqInt : WmVal → Int → Prop
  | .intv i, w => i = w
  | .null, _ => False
  | .other, _ => False

instance : ∀ (v : WmVal) (w : Int), Decidable (wmEqInt v w) := by
  intro v w
  cases v <;> simp [wmEqInt] <;> infer_instance

/-- `DELETE FROM meta WHERE task_id=%s AND watermark=%s` (line 169). -/
def deleteByWm (rows : List MetaRow) (tid : String) (w : Int) : List MetaRow :=
  rows.filter (fun r => ¬(r.task = tid ∧ wmEqInt r.wm w))

/-- `prune_watermarks` (branch_cdc.py lines 164-169): list the task's
watermarks newest first; if more than `maxKeep`, delete the excess ones by
value. -/
def prune_watermarks (rows : List MetaRow) (tid : String) (maxKeep : Nat) : List MetaRow :=
  let allw := get_watermarks false rows tid
  if allw.length ≤ maxKeep then rows
  else (allw.drop maxKeep).foldl (fun rs w => deleteByWm rs tid w) rows

/-- A task history in which the same watermark value was recorded twice
(newest and oldest rows both carry value 10). -/
def dupWmRows : List MetaRow :=
  [⟨"t", .intv 10, 1⟩, ⟨"t", .intv 20, 2⟩, ⟨"t", .intv 30, 3⟩,
   ⟨"t", .intv 40, 4⟩, ⟨"t", .intv 10, 5⟩]

/-- C9 counterexample: pruning deletes by watermark *value*, so with the
duplicate-valued history `dupWmRows` (watermarks newest-first
`[10, 40, 30, 20, 10]`) the delete of the overflow value `10` also removes
the newest row; only `[40, 30, 20]` remain instead of the four newest
`[10, 40, 30, 20]`. -/
theorem claimC9_prune_counterexample :
    get_watermarks false (prune_watermarks dupWmRows "t" MAX_WATERMARKS) "t" ≠
      (get_watermarks false dupWmRows "t").take MAX_WATERMARKS := by
  decide

lemma get_watermarks_ok (rows : List MetaRow) (tid : String) :
    get_watermarks false rows tid = collectWms (metaQuery rows tid) := rfl

lemma foldl_deleteByWm (ws : List Int) : ∀ (rows : List MetaRow) (tid : String),
    ws.foldl (fun rs w => deleteByWm rs tid w) rows =
      rows.filter (fun r => ∀ w ∈ ws, ¬(r.task = tid ∧ wmEqInt r.wm w)) := by
  induction ws with
  | nil =>
    intro rows tid
    rw [List.foldl_nil]
    exact (List.filter_eq_self.mpr (by simp)).symm
  | cons w ws' ih =>
    intro rows tid
    rw [List.foldl_cons, ih, deleteByWm, List.filter_filter]
    apply List.filter_congr
    intro r _
    simp [List.forall_mem_cons, Bool.and_comm]

lemma strict_of_sorted_ne {l : List MetaRow}
    (hs : l.Sorted newerFirst)
    (hne : l.Pairwise (fun a b => a.created ≠ b.created)) :
    l.Pairwise (fun a b => b.created < a.created) :=
  (List.Pairwise.and hs hne).imp (fun h => lt_of_le_of_ne h.1 (Ne.symm h.2))

instance : IsAntisymm MetaRow (fun a b => b.created < a.created) :=
  ⟨fun _ _ h1 h2 => absurd (lt_trans h1 h2) (lt_irrefl _)⟩

/-- With pairwise-distinct sort keys, sorting commutes with filtering. -/
lemma insertionSort_filter_comm (B : List MetaRow) (q : MetaRow → Bool)
    (hne : B.Pairwise (fun a b => a.created ≠ b.created)) :
    List.insertionSort newerFirst (B.filter q) =
      (List.insertionSort newerFirst B).filter q := by
  have hperm : (List.insertionSort newerFirst B).Perm B := List.perm_insertionSort _ _
  have hneS : (List.insertionSort newerFirst B).Pairwise
      (fun a b => a.created ≠ b.created) :=
    (List.Perm.pairwise_iff (fun h => Ne.symm h) hperm).mpr hne
  have hs1 := List.sorted_insertionSort newerFirst (B.filter q)
  have hs2 : List.Sorted newerFirst ((List.insertionSort newerFirst B).filter q) :=
    List.Pairwise.sublist (List.filter_sublist _) (List.sorted_insertionSort _ _)
  have hne1 : (List.insertionSort newerFirst (B.filter q)).Pairwise
      (fun a b => a.created ≠ b.created) :=
    (List.Perm.pairwise_iff (fun h => Ne.symm h) (List.perm_insertionSort _ _)).mpr
      (List.Pairwise.sublist (List.filter_sublist _) hne)
  have hne2 : ((List.insertionSort newerFirst B).filter q).Pairwise
      (fun a b => a.created ≠ b.created) :=
    List.Pairwise.sublist (List.filter_sublist _) hneS
  have hp : (List.insertionSort newerFirst (B.filter q)).Perm
      ((List.insertionSort newerFirst B).filter q) :=
    (List.perm_insertionSort _ _).trans (List.Perm.filter q hperm).symm
  exact List.eq_of_perm_of_sorted hp (strict_of_sorted_ne hs1 hne1)
    (strict_of_sorted_ne hs2 hne2)

lemma collectWms_filter (ws : List Int) : ∀ (S : List MetaRow),
    collectWms (S.filter (fun r => ∀ w ∈ ws, ¬ wmEqInt r.wm w)) =
      (collectWms S).filter (fun i => ¬ i ∈ ws) := by
  intro S
  induction S with
  | nil => rfl
  | cons r S' ih =>
    rw [List.filter_cons]
    cases hw : r.wm with
    | null =>
      rw [if_pos (by simp [hw, wmEqInt])]
      simp [collectWms, hw, ih]
    | other =>
      rw [if_pos (by simp [hw, wmEqInt])]
      simp [collectWms, hw, ih]
    | intv i =>
      by_cases hin : i ∈ ws
      · have hcond : ¬ ∀ w ∈ ws, ¬ wmEqInt (WmVal.intv i) w := by
          intro hall
          exact hall i hin rfl
        rw [if_neg (by simpa using hcond)]
        simp [collectWms, hw, ih, hin]
      · have hcond : ∀ w ∈ ws, ¬ wmEqInt (WmVal.intv i) w := by
          intro w hwmem he
          exact hin (by rw [show i = w from he]; exact hwmem)
        rw [if_pos (by simpa using hcond)]
        simp [collectWms, hw, ih, hin]

lemma filter_swap (p q : MetaRow → Bool) (l : List MetaRow) :
    (l.filter p).filter q = (l.filter q).filter p := by
  rw [List.filter_filter, List.filter_filter]
  exact List.filter_congr (fun a _ => Bool.and_comm _ _)

lemma filter_not_mem_drop {W : List Int} (h : W.Nodup) (k : Nat) :
    W.filter (fun w => ¬ w ∈ W.drop k) = W.take k := by
  have key : ∀ (A D : List Int), A.Disjoint D →
      (A ++ D).filter (fun w => ¬ w ∈ D) = A := by
    intro A D hAD
    rw [List.filter_append]
    have h1 : A.filter (fun w => ¬ w ∈ D) = A := by
      rw [List.filter_eq_self]
      intro a ha
      simpa using hAD ha
    have h2 : D.filter (fun w => ¬ w ∈ D) = [] := by
      rw [List.filter_eq_nil_iff]
      intro a ha
      simp [ha]
    rw [h1, h2, List.append_nil]
  have hkey := key (W.take k) (W.drop k) (List.disjoint_take_drop h (le_refl k))
  rwa [List.take_append_drop] at hkey

/-- C9 (amended): provided the recorded watermark values of the task are
pairwise distinct (and their created-at stamps are distinct, so that the
newest-first order is well defined), after pruning at most 4 watermark
rows remain for the task and the retained values are exactly the 4
newest; because the delete statement matches by watermark *value*, a
duplicated value across the 4-newest boundary would also delete newer
rows (see the counterexample). -/
theorem claimC9_prune_amended (rows : List MetaRow) (tid : String)
    (hnd : (get_watermarks false rows tid).Nodup)
    (hkeys : (rows.filter (fun r => r.task = tid ∧ r.wm ≠ WmVal.null)).Pairwise
      (fun a b => a.created ≠ b.created)) :
    get_watermarks false (prune_watermarks rows tid MAX_WATERMARKS) tid =
      (get_watermarks false rows tid).take MAX_WATERMARKS ∧
    (get_watermarks false (prune_watermarks rows tid MAX_WATERMARKS) tid).length ≤
      MAX_WATERMARKS := by
  by_cases hlen : (get_watermarks false rows tid).length ≤ MAX_WATERMARKS
  · have hp : prune_watermarks rows tid MAX_WATERMARKS = rows := by
      simp only [prune_watermarks]
      rw [if_pos hlen]
    rw [hp, List.take_of_length_le hlen]
    exact ⟨rfl, hlen⟩
  · have hq : prune_watermarks rows tid MAX_WATERMARKS =
        rows.filter (fun r => ∀ w ∈ (get_watermarks false rows tid).drop MAX_WATERMARKS,
          ¬(r.task = tid ∧ wmEqInt r.wm w)) := by
      simp only [prune_watermarks]
      rw [if_neg hlen]
      exact foldl_deleteByWm _ rows tid
    have hbp : (rows.filter (fun r => r.task = tid ∧ r.wm ≠ WmVal.null)).filter
          (fun r => ∀ w ∈ (get_watermarks false rows tid).drop MAX_WATERMARKS,
            ¬(r.task = tid ∧ wmEqInt r.wm w)) =
        (rows.filter (fun r => r.task = tid ∧ r.wm ≠ WmVal.null)).filter
          (fun r => ∀ w ∈ (get_watermarks false rows tid).drop MAX_WATERMARKS,
            ¬ wmEqInt r.wm w) := by
      apply List.filter_congr
      intro r hr
      have htask : r.task = tid := by
        rw [List.mem_filter] at hr
        have h2 := hr.2
        simp only [decide_eq_true_eq] at h2
        exact h2.1
      rw [decide_eq_decide]
      constructor
      · intro hall w hw hwm
        exact hall w hw ⟨htask, hwm⟩
      · intro hall w hw hcon
        exact hall w hw hcon.2
    have hmain : get_watermarks false (prune_watermarks rows tid MAX_WATERMARKS) tid =
        (get_watermarks false rows tid).take MAX_WATERMARKS := by
      rw [hq, get_watermarks_ok, metaQuery, filter_swap, hbp,
        insertionSort_filter_comm _ _ hkeys, collectWms_filter]
      rw [show List.insertionSort newerFirst
          (rows.filter (fun r => r.task = tid ∧ r.wm ≠ WmVal.null)) =
          metaQuery rows tid from rfl]
      rw [← get_watermarks_ok]
      exact filter_not_mem_drop hnd MAX_WATERMARKS
    refine ⟨hmain, ?_⟩
    rw [hmain]
    exact le_trans (List.length_take_le _ _) (le_refl _)

/-- A task history with five pairwise-distinct watermark values. -/
def freshWmRows : List MetaRow :=
  [⟨"t", .intv 10, 1⟩, ⟨"t", .intv 20, 2⟩, ⟨"t", .intv 30, 3⟩,
   ⟨"t", .intv 40, 4⟩, ⟨"t", .intv 50, 5⟩]

theorem claimC9_prune_witness :
    get_watermarks false (prune_watermarks freshWmRows "t" MAX_WATERMARKS) "t" =
      (get_watermarks false freshWmRows "t").take MAX_WATERMARKS :=
  (claimC9_prune_amended freshWmRows "t" (by decide) (by decide)).1

/-! ## Lock lease (branch_cdc.py lines 30, 115-146)

Sequential (single-observer) semantics of the lease row in
`meta_lock`: `acquire_lock` inserts an unowned row when absent, runs the
guarded claiming UPDATE, and reads back the owner.  The heartbeat thread
(`LockKeeper.run`, period 10 s, line 133-135) renews `lock_time` while the
caller still owns the lease. -/

def LOCK_TIMEOUT_SEC : Int := 30

structure LeaseRow where
  owner : Option Nat
  lockTime : Option Int
deriving DecidableEq, Repr

/-- SQL `lock_time < NOW() - INTERVAL 30 SECOND`; a NULL `lock_time`
never compares true. -/
def staleAt (lockTime : Option Int) (now : Int) : Bool :=
  match lockTime with
  | some t => decide (t < now - LOCK_TIMEOUT_SEC)
  | none => false

/-- `acquire_lock` (branch_cdc.py lines 115-124): ensure the row exists
(inserted unowned), claim it when unowned, owned by the caller, or stale,
then report whether the read-back owner is the caller.  Returns the
success flag and the resulting lease row. -/
def acquire_lock (row : Option LeaseRow) (me : Nat) (now : Int) : Bool × LeaseRow :=
  let r0 : LeaseRow := match row with
    | none => { owner := none, lockTime := none }
    | some r => r
  let r1 : LeaseRow :=
    if r0.owner = none ∨ r0.owner = some me ∨ staleAt r0.lockTime now then
      { owner := some me, lockTime := some now }
    else r0
  (decide (r1.owner = some me), r1)

/-- One heartbeat of `LockKeeper.run` (line 135): renew `lock_time` only
while still the owner. -/
def lockKeeperRenew (row : LeaseRow) (me : Nat) (now : Int) : LeaseRow :=
  if row.owner = some me then { row with lockTime := some now } else row

/-- `release_lock` (lines 143-146): clear ownership if held by the caller. -/
def release_lock (row : LeaseRow) (me : Nat) : LeaseRow :=
  if row.owner = some me then { owner := none, lockTime := none } else row

/-- C5: `acquire_lock` succeeds exactly when the lease row is unowned
(or absent, in which case it is inserted unowned), already owned by the
caller, or stale — its timestamp older than the 30-second timeout — and
fails otherwise.  In particular, while instance `a` holds the lease with
a fresh heartbeat-renewed timestamp, an acquire by a different instance
`b` fails; once the timestamp is older than 30 seconds, `b`'s acquire
succeeds and transfers ownership; and a heartbeat by the owner renews the
lease timestamp to the current time. -/
theorem claimC5_acquire_lock_iff :
    (∀ (row : Option LeaseRow) (me : Nat) (now : Int),
      ((acquire_lock row me now).1 = true ↔
        (match row with
         | none => True
         | some r => r.owner = none ∨ r.owner = some me ∨ staleAt r.lockTime now))) ∧
    (∀ (a b : Nat) (tA now : Int), a ≠ b → ¬ (tA < now - LOCK_TIMEOUT_SEC) →
      (acquire_lock (some ⟨some a, some tA⟩) b now).1 = false) ∧
    (∀ (a b : Nat) (tA now : Int), a ≠ b → tA < now - LOCK_TIMEOUT_SEC →
      (acquire_lock (some ⟨some a, some tA⟩) b now).1 = true ∧
      (acquire_lock (some ⟨some a, some tA⟩) b now).2.owner = some b) ∧
    (∀ (a : Nat) (tA : Option Int) (now : Int),
      lockKeeperRenew ⟨some a, tA⟩ a now = ⟨some a, some now⟩) := by
  refine ⟨?_, ?_, ?_, ?_⟩
  · intro row me now
    cases row with
    | none => simp [acquire_lock]
    | some r =>
      by_cases hc : r.owner = none ∨ r.owner = some me ∨ staleAt r.lockTime now
      · simp only [acquire_lock]
        rw [if_pos hc]
        simpa using hc
      · have hno : r.owner ≠ some me := fun h => hc (Or.inr (Or.inl h))
        simp only [acquire_lock]
        rw [if_neg hc]
        exact iff_of_false (by simpa using hno) hc
  · intro a b tA now hab hfresh
    have hc : ¬((some a : Option Nat) = none ∨ (some a : Option Nat) = some b ∨
        staleAt (some tA) now) := by
      simp [staleAt, hfresh]
      exact fun h => hab h
    simp only [acquire_lock]
    rw [if_neg hc]
    simp
    exact fun h => hab h
  · intro a b tA now hab hstale
    have hc : (some a : Option Nat) = none ∨ (some a : Option Nat) = some b ∨
        staleAt (some tA) now := by
      simp [staleAt, hstale]
    constructor
    · simp only [acquire_lock]
      rw [if_pos hc]
      simp
    · simp only [acquire_lock]
      rw [if_pos hc]
  · intro a tA now
    simp [lockKeeperRenew]

theorem claimC5_acquire_lock_witness :
    (acquire_lock (some ⟨some 1, some 100⟩) 2 110).1 = false ∧
    (acquire_lock (some ⟨some 1, some 100⟩) 2 200).1 = true := by
  constructor
  · exact claimC5_acquire_lock_iff.2.1 1 2 100 110 (by decide) (by decide)
  · exact (claimC5_acquire_lock_iff.2.2.1 1 2 100 200 (by decide) (by decide)).1

/-! ## Incremental apply: table-reference rewrite and statement filter
(branch_cdc.py lines 1095-1151)

`apply_incremental_diff` rewrites destination-table references with the
regex `(delete\s+from\s+|replace\s+into\s+|insert\s+into\s+|update\s+)`
`(/\*.*?\*/\s+)?([`\w]+\.[`\w]+|[`\w]+)` (flags I and S), splits with the
lexer, and executes every non-empty statement that is not transaction
control.  The matcher below implements exactly that pattern's leftmost,
alternation-ordered, greedy/lazy semantics for ASCII input. -/

def isWordChar (c : Char) : Bool := c.isAlpha || c.isDigit || c = '_'

def isWordTick (c : Char) : Bool := isWordChar c || c = '`'

/-- Case-insensitive literal match; returns the matched input text and
the rest. -/
def matchLit : List Char → List Char → Option (List Char × List Char)
  | [], cs => some ([], cs)
  | k :: ks, c :: cs =>
    if c.toLower = k then
      match matchLit ks cs with
      | some (m, r) => some (c :: m, r)
      | none => none
    else none
  | _ :: _, [] => none

/-- `\s+`: one or more whitespace characters, greedy. -/
def matchWs1 : List Char → Option (List Char × List Char)
  | c :: cs =>
    if pyIsSpace c then some (c :: cs.takeWhile pyIsSpace, cs.dropWhile pyIsSpace)
    else none
  | [] => none

/-- One keyword followed by `\s+`. -/
def matchKwWs (kw : List Char) (cs : List Char) : Option (List Char × List Char) :=
  match matchLit kw cs with
  | some (m1, r1) =>
    match matchWs1 r1 with
    | some (m2, r2) => some (m1 ++ m2, r2)
    | none => none
  | none => none

/-- Two keywords separated and followed by `\s+`. -/
def matchKw2Ws (kw1 kw2 : List Char) (cs : List Char) : Option (List Char × List Char) :=
  match matchKwWs kw1 cs with
  | some (m1, r1) =>
    match matchKwWs kw2 r1 with
    | some (m2, r2) => some (m1 ++ m2, r2)
    | none => none
  | none => none

/-- Group 1: `delete\s+from\s+ | replace\s+into\s+ | insert\s+into\s+ |
update\s+`, alternatives tried in order. -/
def matchG1 (cs : List Char) : Option (List Char × List Char) :=
  match matchKw2Ws "delete".data "from".data cs with
  | some r => some r
  | none =>
    match matchKw2Ws "replace".data "into".data cs with
    | some r => some r
    | none =>
      match matchKw2Ws "insert".data "into".data cs with
      | some r => some r
      | none => matchKwWs "update".data cs

/-- Group 3: `[`\w]+\.[`\w]+ | [`\w]+`, greedy word runs, qualified
alternative preferred.  Returns the rest after the match. -/
def matchG3 (cs : List Char) : Option (List Char) :=
  let w1 := cs.takeWhile isWordTick
  let r1 := cs.dropWhile isWordTick
  if w1 = [] then none
  else
    match r1 with
    | '.' :: r2 =>
      if r2.takeWhile isWordTick = [] then some r1
      else some (r2.dropWhile isWordTick)
    | _ => some r1

/-- Lazy scan for the optional comment group `(/\*.*?\*/\s+)?` body: try
each successive `*/`, require at least one whitespace after it and a
word/backtick character next (otherwise group 3 would fail and the regex
engine extends `.*?` to the next `*/`).  `acc` is the comment body read so
far, reversed. -/
def scanG2 : Nat → List Char → List Char → Option (List Char × List Char)
  | 0, _, _ => none
  | _ + 1, acc, '*' :: '/' :: rest =>
    (match matchWs1 rest with
     | some (mws, r2) =>
       match r2 with
       | c :: _ =>
         if isWordTick c then some (acc.reverse ++ '*' :: '/' :: mws, r2)
         else scanG2 rest.length ('*' :: acc) ('/' :: rest)
       | [] => scanG2 rest.length ('*' :: acc) ('/' :: rest)
     | none => scanG2 rest.length ('*' :: acc) ('/' :: rest))
  | n + 1, acc, c :: rest => scanG2 n (c :: acc) rest
  | _ + 1, _, [] => none

/-- One match attempt of the rewrite regex at the current position;
returns the replacement text `g1 ++ g2 ++ " " ++ target ++ " "` and the
rest of the input after the matched span. -/
def tryMatchAt (tgt : List Char) (cs : List Char) : Option (List Char × List Char) :=
  match matchG1 cs with
  | none => none
  | some (g1, r1) =>
    match r1 with
    | '/' :: '*' :: r2 =>
      (match scanG2 (r2.length + 1) [] r2 with
       | some (g2, r3) =>
         match matchG3 r3 with
         | some r4 => some (g1 ++ '/' :: '*' :: g2 ++ ' ' :: tgt ++ [' '], r4)
         | none => none
       | none => none)
    | _ =>
      match matchG3 r1 with
      | some r4 => some (g1 ++ ' ' :: tgt ++ [' '], r4)
      | none => none

/-- `re.sub` left-to-right scan. -/
def rewriteAux (tgt : List Char) : Nat → List Char → List Char
  | 0, cs => cs
  | _, [] => []
  | n + 1, c :: rest =>
    match tryMatchAt tgt (c :: rest) with
    | some (rep, rest') => rep ++ rewriteAux tgt n rest'
    | none => c :: rewriteAux tgt n rest

/-- The table-reference rewrite pass of `apply_incremental_diff`
(line 1098 and 1140): every regex match is replaced by
`g1 ++ (g2 or "") ++ " `d_db`.`d_table` "`. -/
def rewriteTargets (d_db d_table : String) (txt : String) : String :=
  String.mk (rewriteAux ("`" ++ d_db ++ "`.`" ++ d_table ++ "`").data txt.data.length
    txt.data)

/-- Word boundary `\b` after a keyword: next character is not a word
character (or end of input). -/
def wordBoundary : List Char → Bool
  | [] => true
  | c :: _ => !(isWordChar c)

/-- `re.match(r"^(BEGIN|COMMIT|ROLLBACK|START\s+TRANSACTION)\b", s, re.I)`
(lines 1146, 557). -/
def tx_control (s : String) : Bool :=
  let cs := s.data
  let one : List Char → Bool := fun kw =>
    match matchLit kw cs with
    | some (_, rest) => wordBoundary rest
    | none => false
  one "begin".data || one "commit".data || one "rollback".data ||
    (match matchLit "start".data cs with
     | some (_, r1) =>
       match matchWs1 r1 with
       | some (_, r2) =>
         match matchLit "transaction".data r2 with
         | some (_, r3) => wordBoundary r3
         | none => false
       | none => false
     | none => false)


/-- A staged incremental diff artifact: `get_diff_file_path` may find no
path (row skipped), and `load_file` may return NULL (`text = none`), which
raises. -/
structure IncFile where
  path : Option String
  text : Option String
deriving DecidableEq, Repr

/-- First pass of `apply_incremental_diff` (lines 1105-1119): each file is
read for statistics logging; a NULL `load_file` result raises. -/
def incrReadPass : List IncFile → Except Unit Unit
  | [] => .ok ()
  | f :: fs =>
    match f.path with
    | none => incrReadPass fs
    | some _ =>
      match f.text with
      | none => .error ()
      | some _ => incrReadPass fs

/-- The statement loop of the second pass (lines 1140-1150): rewrite the
text, split with the lexer, skip empty and transaction-control
statements, execute the rest in order. -/
def execStmtsOfText (d_db d_table : String) (txt : String) : List String :=
  (split_sql_statements (rewriteTargets d_db d_table txt)).foldr
    (fun s acc =>
      let s' := pyStripStr s
      if s' = "" then acc
      else if tx_control s' then acc
      else s' :: acc) []

/-- Second pass of `apply_incremental_diff` (lines 1131-1150), collecting
the statements executed against the destination connection. -/
def incrExecPass (d_db d_table : String) : List IncFile → Except Unit (List String)
  | [] => .ok []
  | f :: fs =>
    match f.path with
    | none => incrExecPass d_db d_table fs
    | some _ =>
      match f.text with
      | none => .error ()
      | some t =>
        match incrExecPass d_db d_table fs with
        | .ok rest => .ok (execStmtsOfText d_db d_table t ++ rest)
        | .error e => .error e

/-- `apply_incremental_diff` (branch_cdc.py lines 1095-1151): two passes
over the artifacts; the result is the ordered list of statements executed
on the destination (whose length is the returned
`applied_stmt_count`). -/
def apply_incremental_diff (d_db d_table : String) (files : List IncFile) :
    Except Unit (List String) :=
  match incrReadPass files with
  | .error e => .error e
  | .ok _ => incrExecPass d_db d_table files

/-- Claim-side description of the executed statements: per artifact, the
lexer split of the rewritten text with the transaction-control statements
removed (wherever they occur). -/
def incExecutedSpec (d_db d_table : String) (files : List IncFile) : List String :=
  files.foldr
    (fun f acc =>
      match f.path, f.text with
      | some _, some t =>
        (split_sql_statements (rewriteTargets d_db d_table t)).filter
          (fun s => ¬ tx_control s) ++ acc
      | _, _ => acc) []

/-- Claim-side rendering of "strips the leading and trailing
transaction-control statements": drop them only at both ends. -/
def stripEdgeTx (l : List String) : List String :=
  ((l.dropWhile (fun s => tx_control s)).reverse.dropWhile
    (fun s => tx_control s)).reverse

/-! ## Destination transaction models

The destination connection is opened without autocommit; an explicit
`conn.begin()` starts a transaction whose work becomes visible only at
`commit()`, and `rollback()` discards it.  The interpreters below embed
the apply blocks of `perform_table_sync` / `perform_db_sync` over an
explicit committed state, recording the destination-side events. -/

inductive DsEvent where
  | begin
  | exec (sql : String)
  | insertWatermark (wm : Int)
  | commit
  | rollback
deriving DecidableEq, Repr

structure DsState where
  table : List String
  meta : List MetaRow
deriving DecidableEq, Repr

/-- A staged FULL diff artifact: a file path (possibly absent, skipped)
and the rows its `LOAD DATA` contributes (`none` models a load failure
that raises). -/
structure DiffFile where
  path : Option String
  rows : Option (List String)
deriving DecidableEq, Repr

/-- The `LOAD DATA` loop of the FULL apply (lines 1438-1441 and
1089-1093): files without a path are skipped, a failing load aborts, and
each successful load appends its rows. -/
def runLoadLoop : List String → List DiffFile → Except Unit (List String)
  | acc, [] => .ok acc
  | acc, f :: fs =>
    match f.path with
    | none => runLoadLoop acc fs
    | some _ =>
      match f.rows with
      | none => .error ()
      | some rs => runLoadLoop (acc ++ rs) fs

structure FullApplyResult where
  committed : DsState
  states : List DsState
  events : List DsEvent
  success : Bool
deriving DecidableEq, Repr

/-- The FULL apply transaction of `perform_table_sync` (lines 1434-1446):
`begin`; `TRUNCATE` (pending table emptied); bulk-load every artifact;
insert the new watermark meta row; `commit` — any failure rolls the whole
transaction back.  `states` lists the committed states an outside
observer can see over the block's lifetime. -/
def full_apply_txn (st : DsState) (dfiles : List DiffFile) (tid : String) (wm : Int)
    (created : Nat) : FullApplyResult :=
  match runLoadLoop [] dfiles with
  | .error _ =>
    { committed := st, states := [st], events := [.begin, .rollback], success := false }
  | .ok t =>
    let pending : DsState := { table := t, meta := st.meta ++ [⟨tid, .intv wm, created⟩] }
    { committed := pending, states := [st, pending], events := [.begin, .commit],
      success := true }

/-- Rows contributed by the loadable artifacts, in order. -/
def collectRows (dfiles : List DiffFile) : List String :=
  dfiles.foldr
    (fun f acc =>
      match f.path, f.rows with
      | some _, some rs => rs ++ acc
      | _, _ => acc) []

def anyLoadFails (dfiles : List DiffFile) : Bool :=
  dfiles.any (fun f => f.path.isSome && f.rows.isNone)

lemma runLoadLoop_eq : ∀ (dfiles : List DiffFile) (acc : List String),
    runLoadLoop acc dfiles =
      (if anyLoadFails dfiles then Except.error ()
       else Except.ok (acc ++ collectRows dfiles)) := by
  intro dfiles
  induction dfiles with
  | nil => intro acc; simp [runLoadLoop, anyLoadFails, collectRows]
  | cons f fs ih =>
    intro acc
    cases hp : f.path with
    | none => simp [runLoadLoop, anyLoadFails, collectRows, hp, ih acc]
    | some p =>
      cases hr : f.rows with
      | none => simp [runLoadLoop, anyLoadFails, hp, hr]
      | some rs =>
        simp [runLoadLoop, anyLoadFails, collectRows, hp, hr, ih (acc ++ rs)]

structure IncCycleResult where
  committed : DsState
  events : List DsEvent
  status : String
  reportedOk : Bool
  artifactsRemoved : Bool
deriving DecidableEq, Repr

/-- The incremental apply section of `perform_table_sync` (lines
1463-1491): `begin`; replay the incremental diff; on zero applied
statements roll back, report NOOP success, and still remove the staged
artifacts; otherwise insert the new watermark row and commit in the same
transaction (then remove artifacts and prune).  An exception from the
apply rolls back and fails the cycle without reaching the artifact
removal.  `eff` is the external row-level semantics of one executed
statement. -/
def incremental_apply_txn (eff : String → List String → List String) (st : DsState)
    (files : List IncFile) (d_db d_table tid : String) (wm : Int) (created : Nat) :
    IncCycleResult :=
  match apply_incremental_diff d_db d_table files with
  | .error _ =>
    { committed := st, events := [.begin, .rollback], status := "FAILED",
      reportedOk := false, artifactsRemoved := false }
  | .ok stmts =>
    if stmts.length = 0 then
      { committed := st, events := .begin :: stmts.map DsEvent.exec ++ [.rollback],
        status := "NOOP", reportedOk := true, artifactsRemoved := true }
    else
      let pending : DsState :=
        { table := stmts.foldl (fun t s => eff s t) st.table,
          meta := st.meta ++ [⟨tid, .intv wm, created⟩] }
      { committed := pending,
        events := .begin :: stmts.map DsEvent.exec ++ [.insertWatermark wm, .commit],
        status := "SUCCESS", reportedOk := true, artifactsRemoved := true }

/-! ## Pipeline characterization (claims C2, C8) -/

lemma split_mem_stripped {s t : String} (ht : t ∈ split_sql_statements s) :
    pyStripStr t = t ∧ t ≠ "" := by
  rw [split_eq_spec, splitStatementsSpec] at ht
  rw [List.mem_map] at ht
  obtain ⟨l, hl, hlt⟩ := ht
  rw [List.mem_filter] at hl
  obtain ⟨hm, hlne⟩ := hl
  rw [List.mem_map] at hm
  obtain ⟨u, _, hul⟩ := hm
  have hlne' : l ≠ [] := by simpa using hlne
  subst hlt
  subst hul
  constructor
  · show String.mk (pyStrip (pyStrip u)) = String.mk (pyStrip u)
    rw [pyStrip_idem]
  · intro he
    exact hlne' (congrArg String.data he)

lemma foldr_skip_eq_filter : ∀ (l : List String),
    (∀ t ∈ l, pyStripStr t = t ∧ t ≠ "") →
    l.foldr (fun s acc =>
      let s' := pyStripStr s
      if s' = "" then acc else if tx_control s' then acc else s' :: acc) [] =
      l.filter (fun s => ¬ tx_control s) := by
  intro l
  induction l with
  | nil => intro _; rfl
  | cons t l' ih =>
    intro hall
    obtain ⟨hstrip, hne⟩ := hall t (by simp)
    have ih' := ih (fun u hu => hall u (by simp [hu]))
    by_cases htx : tx_control t = true <;>
      simp [List.filter_cons, hstrip, hne, htx, ih']

lemma execStmtsOfText_eq_filter (d_db d_table : String) (txt : String) :
    execStmtsOfText d_db d_table txt =
      (split_sql_statements (rewriteTargets d_db d_table txt)).filter
        (fun s => ¬ tx_control s) := by
  rw [execStmtsOfText]
  exact foldr_skip_eq_filter _ (fun t ht => split_mem_stripped ht)

lemma incrReadPass_eq : ∀ (files : List IncFile),
    incrReadPass files =
      (if files.any (fun f => f.path.isSome && f.text.isNone) then Except.error ()
       else Except.ok ()) := by
  intro files
  induction files with
  | nil => rfl
  | cons f fs ih =>
    cases hp : f.path with
    | none => simp [incrReadPass, hp, ih]
    | some p =>
      cases htx : f.text with
      | none => simp [incrReadPass, hp, htx]
      | some t => simp [incrReadPass, hp, htx, ih]

lemma incrExecPass_eq (d_db d_table : String) : ∀ (files : List IncFile),
    files.any (fun f => f.path.isSome && f.text.isNone) = false →
    incrExecPass d_db d_table files = Except.ok (incExecutedSpec d_db d_table files) := by
  intro files
  induction files with
  | nil => intro _; rfl
  | cons f fs ih =>
    intro hok
    simp only [List.any_cons, Bool.or_eq_false_iff] at hok
    cases hp : f.path with
    | none => simpa [incrExecPass, incExecutedSpec, hp] using ih (by exact hok.2)
    | some p =>
      cases htx : f.text with
      | none =>
        exfalso
        have := hok.1
        rw [hp, htx] at this
        simp at this
      | some t =>
        rw [incrExecPass, hp]
        simp only [htx]
        rw [ih hok.2]
        simp [incExecutedSpec, hp, htx, execStmtsOfText_eq_filter]

lemma apply_incremental_eq (d_db d_table : String) (files : List IncFile) :
    apply_incremental_diff d_db d_table files =
      (if files.any (fun f => f.path.isSome && f.text.isNone) then Except.error ()
       else Except.ok (incExecutedSpec d_db d_table files)) := by
  rw [apply_incremental_diff, incrReadPass_eq]
  by_cases h : files.any (fun f => f.path.isSome && f.text.isNone) = true
  · simp [h]
  · simp only [Bool.not_eq_true] at h
    simp [h, incrExecPass_eq d_db d_table files h]

/-- C8 (amended): for every incremental apply, the engine executes, in
one destination transaction, exactly the non-empty statements of the
lexer split of each artifact's rewritten SQL text with *all*
transaction-control statements (BEGIN/COMMIT/ROLLBACK/START TRANSACTION)
skipped, wherever they occur — not only at the start and end of the
changeset.  The rewrite pass (qualified and unqualified table references
after INSERT INTO / REPLACE INTO / UPDATE / DELETE FROM become the real
destination table) happens before the split, and a missing artifact text
raises instead of executing anything. -/
theorem claimC8_incremental_apply (eff : String → List String → List String)
    (st : DsState) (files : List IncFile) (d_db d_table tid : String) (wm : Int)
    (created : Nat) :
    apply_incremental_diff d_db d_table files =
      (if files.any (fun f => f.path.isSome && f.text.isNone) then Except.error ()
       else Except.ok (incExecutedSpec d_db d_table files)) ∧
    (incremental_apply_txn eff st files d_db d_table tid wm created).events =
      (match apply_incremental_diff d_db d_table files with
       | .error _ => [DsEvent.begin, DsEvent.rollback]
       | .ok stmts =>
         DsEvent.begin :: stmts.map DsEvent.exec ++
           (if stmts.length = 0 then [DsEvent.rollback]
            else [DsEvent.insertWatermark wm, DsEvent.commit])) := by
  refine ⟨apply_incremental_eq d_db d_table files, ?_⟩
  rcases h : apply_incremental_diff d_db d_table files with e | stmts
  · simp [incremental_apply_txn, h]
  · by_cases hz : stmts.length = 0 <;> simp [incremental_apply_txn, h, hz]

instance exceptDecEq {E A : Type} [DecidableEq E] [DecidableEq A] :
    DecidableEq (Except E A) := fun a b =>
  match a, b with
  | .error e, .error f =>
    decidable_of_iff (e = f) ⟨fun h => by rw [h], fun h => by injection h⟩
  | .error _, .ok _ => isFalse (fun h => Except.noConfusion h)
  | .ok _, .error _ => isFalse (fun h => Except.noConfusion h)
  | .ok x, .ok y =>
    decidable_of_iff (x = y) ⟨fun h => by rw [h], fun h => by injection h⟩

def sqlC8 : String :=
  "BEGIN;INSERT INTO db1.t1 VALUES (1);COMMIT;BEGIN;DELETE FROM db1.t1 WHERE a=1;COMMIT"

set_option maxRecDepth 8000 in
/-- C8 counterexample: the engine does not strip only the *leading and
trailing* transaction-control statements — it skips them everywhere.  On
a changeset containing two BEGIN/COMMIT-wrapped transactions the claim's
reading would execute the interior COMMIT and BEGIN; the code does not. -/
theorem claimC8_counterexample :
    apply_incremental_diff "db2" "t2" [⟨some "f", some sqlC8⟩] ≠
      Except.ok (stripEdgeTx
        (split_sql_statements (rewriteTargets "db2" "t2" sqlC8))) := by
  decide

/-- C2: in a FULL apply the truncation, every artifact bulk load, and the
insertion of the new watermark row happen inside one destination
transaction.  If any load fails the transaction rolls back: the committed
state never changes, so the prior data and watermark history are intact
and the only state an observer ever sees is the initial one.  If all
loads succeed, the single commit publishes the reloaded table *together
with* the appended watermark row: the observable states are exactly the
initial one and the final one carrying both — never a watermark without
its data or the data without its watermark. -/
theorem claimC2_full_apply_atomic (st : DsState) (dfiles : List DiffFile)
    (tid : String) (wm : Int) (created : Nat) :
    full_apply_txn st dfiles tid wm created =
      (if anyLoadFails dfiles then
        { committed := st, states := [st], events := [.begin, .rollback],
          success := false }
       else
        { committed := { table := collectRows dfiles,
                         meta := st.meta ++ [⟨tid, .intv wm, created⟩] },
          states := [st, { table := collectRows dfiles,
                           meta := st.meta ++ [⟨tid, .intv wm, created⟩] }],
          events := [.begin, .commit], success := true }) := by
  rw [full_apply_txn, runLoadLoop_eq]
  by_cases h : anyLoadFails dfiles = true <;> simp [h]

/-! ## Database-scope sync transaction (branch_cdc.py lines 1153-1176,
1251-1288) -/

structure DbState where
  tables : List (String × List String)
  meta : List MetaRow
deriving DecidableEq, Repr

def getTable (tabs : List (String × List String)) (t : String) : List String :=
  match tabs.find? (fun p => p.fst = t) with
  | some p => p.snd
  | none => []

def setTable (tabs : List (String × List String)) (t : String) (rows : List String) :
    List (String × List String) :=
  match tabs with
  | [] => [(t, rows)]
  | p :: ps => if p.fst = t then (t, rows) :: ps else p :: setTable ps t rows

/-- Per-table oracle for `sync_database_table`: the outcome of the
incremental diff computation (`Except.error` is the typed
`IncrementalFallback` raised by `build_incremental_diff_files`) and the
artifacts a FULL diff would stage. -/
structure TableOutcome where
  incr : Except Unit (List IncFile)
  fullFiles : List DiffFile
deriving DecidableEq, Repr

/-- `sync_database_table` (lines 1153-1176): with a prior watermark, try
the incremental diff; on `IncrementalFallback` fall back to a FULL diff
for this table; without a prior watermark go FULL directly.  FULL apply
truncates and reloads the table, INCREMENTAL apply replays the rewritten
statements.  Returns the updated pending state and the mode used.  Note:
nothing here touches the meta rows — the watermark record is *not*
discarded on fallback. -/
def sync_database_table_model (eff : String → List String → List String)
    (d_db t : String) (lastgood : Option Int) (tout : TableOutcome)
    (pending : DbState) : Except Unit (DbState × String) :=
  match lastgood with
  | some _ =>
    (match tout.incr with
     | .ok ifiles =>
       match apply_incremental_diff d_db t ifiles with
       | .error _ => .error ()
       | .ok stmts =>
         let newRows := stmts.foldl (fun rs s => eff s rs) (getTable pending.tables t)
         .ok ({ pending with tables := setTable pending.tables t newRows }, "INCREMENTAL")
     | .error _ =>
       match runLoadLoop [] tout.fullFiles with
       | .error _ => .error ()
       | .ok rows =>
         .ok ({ pending with tables := setTable pending.tables t rows }, "FULL"))
  | none =>
    match runLoadLoop [] tout.fullFiles with
    | .error _ => .error ()
    | .ok rows => .ok ({ pending with tables := setTable pending.tables t rows }, "FULL")

/-- The per-table loop of `perform_db_sync` (lines 1256-1274). -/
def dbSyncTables (eff : String → List String → List String) (d_db : String)
    (lastgood : Option Int) :
    List (String × TableOutcome) → DbState → Except Unit (DbState × List String)
  | [], pending => .ok (pending, [])
  | (t, tout) :: rest, pending =>
    match sync_database_table_model eff d_db t lastgood tout pending with
    | .error e => .error e
    | .ok (pending', mode) =>
      match dbSyncTables eff d_db lastgood rest pending' with
      | .error e => .error e
      | .ok (final, modes) => .ok (final, mode :: modes)

structure DbCycleResult where
  committed : DbState
  status : String
  modes : List String
deriving DecidableEq, Repr

/-- The destination transaction of `perform_db_sync` (lines 1254-1288):
`begin`; sync every table; insert the new watermark row; `commit` — a new
watermark row is inserted and committed *unconditionally* on success, no
matter how many statements the incremental applies executed.  Any table
failure rolls everything back. -/
def perform_db_sync_txn (eff : String → List String → List String) (st : DbState)
    (lastgood : Option Int) (tables : List (String × TableOutcome))
    (d_db tid : String) (wm : Int) (created : Nat) : DbCycleResult :=
  match dbSyncTables eff d_db lastgood tables st with
  | .error _ => { committed := st, status := "FAILED", modes := [] }
  | .ok (pending, modes) =>
    { committed := { pending with meta := pending.meta ++ [⟨tid, .intv wm, created⟩] },
      status := "SUCCESS", modes := modes }

set_option maxRecDepth 4000 in
/-- C3 counterexample: a database-scope incremental cycle whose total
applied-statement count is zero is *not* a NOOP — `perform_db_sync`
inserts and commits a new watermark row and reports SUCCESS.  The staged
changeset here is `BEGIN;\nCOMMIT;`, which applies zero statements, yet
the watermark history grows. -/
theorem claimC3_counterexample :
    apply_incremental_diff "db1" "t1" [⟨some "f", some "BEGIN;\nCOMMIT;"⟩] =
      Except.ok [] ∧
    (perform_db_sync_txn (fun _ rs => rs) ⟨[("t1", ["r"])], [⟨"tid", .intv 5, 1⟩]⟩
        (some 5) [("t1", ⟨.ok [⟨some "f", some "BEGIN;\nCOMMIT;"⟩], []⟩)]
        "db1" "tid" 6 2).status = "SUCCESS" ∧
    (perform_db_sync_txn (fun _ rs => rs) ⟨[("t1", ["r"])], [⟨"tid", .intv 5, 1⟩]⟩
        (some 5) [("t1", ⟨.ok [⟨some "f", some "BEGIN;\nCOMMIT;"⟩], []⟩)]
        "db1" "tid" 6 2).committed.meta =
      [⟨"tid", .intv 5, 1⟩, ⟨"tid", .intv 6, 2⟩] := by
  refine ⟨by decide, by decide, by decide⟩

/-- C3 (amended): in a *single-table* incremental sync cycle whose
applied-statement count is zero, the cycle is a NOOP: the destination
transaction is rolled back (the committed state is unchanged, so no new
watermark row is inserted and the newest watermark is untouched), the
staged diff artifacts are still removed, and the cycle is reported as a
success with status NOOP.  In database scope a zero-statement cycle still
commits a new watermark (see the counterexample). -/
theorem claimC3_noop_amended (eff : String → List String → List String)
    (st : DsState) (files : List IncFile) (d_db d_table tid : String) (wm : Int)
    (created : Nat) (stmts : List String)
    (happly : apply_incremental_diff d_db d_table files = Except.ok stmts)
    (hzero : stmts.length = 0) :
    (incremental_apply_txn eff st files d_db d_table tid wm created).committed = st ∧
    (incremental_apply_txn eff st files d_db d_table tid wm created).committed.meta =
      st.meta ∧
    (incremental_apply_txn eff st files d_db d_table tid wm created).status = "NOOP" ∧
    (incremental_apply_txn eff st files d_db d_table tid wm created).reportedOk = true ∧
    (incremental_apply_txn eff st files d_db d_table tid wm created).artifactsRemoved =
      true ∧
    (incremental_apply_txn eff st files d_db d_table tid wm created).events =
      [DsEvent.begin, DsEvent.rollback] := by
  have hnil : stmts = [] := List.length_eq_zero.mp hzero
  subst hnil
  simp [incremental_apply_txn, happly]

set_option maxRecDepth 2000 in
theorem claimC3_noop_witness :
    (incremental_apply_txn (fun _ t => t) ⟨["r"], [⟨"tid", .intv 5, 1⟩]⟩
        [⟨some "f", some "BEGIN;\nCOMMIT;"⟩] "db1" "t1" "tid" 6 2).status = "NOOP" ∧
    (incremental_apply_txn (fun _ t => t) ⟨["r"], [⟨"tid", .intv 5, 1⟩]⟩
        [⟨some "f", some "BEGIN;\nCOMMIT;"⟩] "db1" "t1" "tid" 6 2).committed.meta =
      [⟨"tid", .intv 5, 1⟩] :=
  ⟨(claimC3_noop_amended (fun _ t => t) ⟨["r"], [⟨"tid", .intv 5, 1⟩]⟩
      [⟨some "f", some "BEGIN;\nCOMMIT;"⟩] "db1" "t1" "tid" 6 2 [] (by decide) rfl).2.2.1,
   by
    rw [(claimC3_noop_amended (fun _ t => t) ⟨["r"], [⟨"tid", .intv 5, 1⟩]⟩
      [⟨some "f", some "BEGIN;\nCOMMIT;"⟩] "db1" "t1" "tid" 6 2 [] (by decide) rfl).2.1]⟩

/-! ## Watermark resolution and fallback (claim C4) -/

inductive WmCheck where
  | pass
  | fail
  | errorOut
deriving DecidableEq, Repr

structure WmResolution where
  lastgood : Option Int
  meta : List MetaRow
  abort : Bool
deriving DecidableEq, Repr

/-- The watermark-resolution step of `perform_table_sync` (lines
1376-1401): take the newest recorded watermark; a forced-full run drops
it; if its MO_TS is no longer available upstream
(`check_mo_ts_available`), delete the task's meta rows and fall back to
FULL; otherwise sample-verify it — a failed check also deletes and falls
back, while a check that still errors after retries aborts the cycle.
(The `int()` conversion guard of lines 1381-1387 is the identity here
because the model's watermark values are already integers.) -/
def resolve_watermark_table (rows : List MetaRow) (tid : String) (force_full : Bool)
    (available : Int → Bool) (vcheck : Int → WmCheck) : WmResolution :=
  let ws := get_watermarks false rows tid
  let lg0 := ws.head?
  let lg1 := if force_full then none else lg0
  match lg1 with
  | none => { lastgood := none, meta := rows, abort := false }
  | some v =>
    if ¬ available v then
      { lastgood := none, meta := rows.filter (fun r => ¬ r.task = tid), abort := false }
    else
      match vcheck v with
      | .fail =>
        { lastgood := none, meta := rows.filter (fun r => ¬ r.task = tid),
          abort := false }
      | .errorOut => { lastgood := some v, meta := rows, abort := true }
      | .pass => { lastgood := some v, meta := rows, abort := false }

/-- Mode selection of line 1414: FULL exactly when no usable watermark
remains. -/
def sync_kind_of (r : WmResolution) : String :=
  if r.lastgood.isNone then "FULL" else "INCREMENTAL"

/-- C4 counterexample: in database scope, when the incremental diff fails
with the typed `IncrementalFallback`, the table is re-synced FULL and the
cycle succeeds, but the watermark record is *not* discarded — the stale
record (value 5) is still in the meta history after the cycle, alongside
the new one. -/
theorem claimC4_fallback_counterexample :
    (perform_db_sync_txn (fun _ rs => rs) ⟨[("t1", ["old"])], [⟨"tid", .intv 5, 1⟩]⟩
        (some 5) [("t1", ⟨.error (), [⟨some "f", some ["row1"]⟩]⟩)]
        "db1" "tid" 6 2).modes = ["FULL"] ∧
    (perform_db_sync_txn (fun _ rs => rs) ⟨[("t1", ["old"])], [⟨"tid", .intv 5, 1⟩]⟩
        (some 5) [("t1", ⟨.error (), [⟨some "f", some ["row1"]⟩]⟩)]
        "db1" "tid" 6 2).status = "SUCCESS" ∧
    (perform_db_sync_txn (fun _ rs => rs) ⟨[("t1", ["old"])], [⟨"tid", .intv 5, 1⟩]⟩
        (some 5) [("t1", ⟨.error (), [⟨some "f", some ["row1"]⟩]⟩)]
        "db1" "tid" 6 2).committed.meta =
      [⟨"tid", .intv 5, 1⟩, ⟨"tid", .intv 6, 2⟩] := by
  refine ⟨by decide, by decide, by decide⟩

/-- C4 (amended): two distinct recoveries exist.  (i) In table scope, at
cycle start, if the newest watermark's MO_TS is unavailable upstream the
watermark records of the task are deleted and the cycle proceeds as a
FULL sync instead of failing.  (ii) When the incremental diff computation
fails (database scope), the typed `IncrementalFallback` — not a generic
error — makes that table fall back to a FULL truncate-and-reload within
the same, still-successful cycle, but the watermark record is *not*
discarded there (see the counterexample). -/
theorem claimC4_fallback_amended :
    (∀ (rows : List MetaRow) (tid : String) (available : Int → Bool)
        (vcheck : Int → WmCheck) (v : Int),
      (get_watermarks false rows tid).head? = some v →
      available v = false →
      resolve_watermark_table rows tid false available vcheck =
        { lastgood := none, meta := rows.filter (fun r => ¬ r.task = tid),
          abort := false } ∧
      sync_kind_of (resolve_watermark_table rows tid false available vcheck) =
        "FULL") ∧
    (∀ (eff : String → List String → List String) (d_db t : String) (v : Int)
        (fullFiles : List DiffFile) (pending : DbState),
      anyLoadFails fullFiles = false →
      sync_database_table_model eff d_db t (some v) ⟨Except.error (), fullFiles⟩
          pending =
        Except.ok ({ pending with
          tables := setTable pending.tables t (collectRows fullFiles) }, "FULL")) := by
  constructor
  · intro rows tid available vcheck v hhead hav
    have hres : resolve_watermark_table rows tid false available vcheck =
        { lastgood := none, meta := rows.filter (fun r => ¬ r.task = tid),
          abort := false } := by
      simp only [resolve_watermark_table, if_neg (by simp : ¬False)]
      rw [show (if false = true then none
          else (get_watermarks false rows tid).head?) =
          (get_watermarks false rows tid).head? from rfl, hhead]
      simp [hav]
    exact ⟨hres, by rw [sync_kind_of, hres]; simp⟩
  · intro eff d_db t v fullFiles pending hload
    simp [sync_database_table_model, runLoadLoop_eq, hload]

theorem claimC4_fallback_witness :
    resolve_watermark_table [⟨"tid", .intv 5, 1⟩] "tid" false (fun _ => false)
        (fun _ => WmCheck.pass) =
      { lastgood := none, meta := [], abort := false } ∧
    sync_database_table_model (fun _ rs => rs) "db1" "t1" (some 5)
        ⟨Except.error (), [⟨some "f", some ["row1"]⟩]⟩ ⟨[("t1", ["old"])], []⟩ =
      Except.ok (⟨[("t1", ["row1"])], []⟩, "FULL") := by
  constructor
  · exact ((claimC4_fallback_amended.1 [⟨"tid", .intv 5, 1⟩] "tid" (fun _ => false)
      (fun _ => WmCheck.pass) 5 (by decide) rfl).1).trans (by decide)
  · exact (claimC4_fallback_amended.2 (fun _ rs => rs) "db1" "t1" 5
      [⟨some "f", some ["row1"]⟩] ⟨[("t1", ["old"])], []⟩ (by decide)).trans (by decide)

/-! ## Consistency verification columns (branch_cdc.py lines 32-33,
674-699, 701-747, 749-793) -/

structure Col where
  field : String
  type : String
  key : String
deriving DecidableEq, Repr

/-- The raw `verify_columns` configuration value (absent, a
comma-separated string, or a list). -/
inductive VerifyColsCfg where
  | absent
  | str (s : String)
  | list (l : List String)
deriving DecidableEq, Repr

/-- `normalize_verify_columns` (lines 701-711). -/
def normalize_verify_columns : VerifyColsCfg → List String
  | .absent => []
  | .str s => ((s.splitOn ",").map pyStripStr).filter (fun c => ¬ c = "")
  | .list l => (l.map pyStripStr).filter (fun c => ¬ c = "")

/-- Membership in the Python field-keyed dict `{c["Field"]: c for c}`. -/
def hasField (cs : List Col) (f : String) : Bool := cs.any (fun c => c.field = f)

/-- Retrieval from that dict: a duplicated field keeps the last
descriptor. -/
def dictFind (cs : List Col) (f : String) : Option Col :=
  cs.reverse.find? (fun c => c.field = f)

def pkFieldsOf (cols : List Col) : List String :=
  (cols.filter (fun c => c.key = "PRI")).map (fun c => c.field)

/-- Corrected description of fast-mode column resolution (see C7):
primary key unioned with the configured subset when both apply, primary
key alone, subset alone, or a count-only comparison with *no* columns —
never "all columns", and with no table-size-dependent sampling anywhere.
A multi-column primary key present as `__mo_cpkey_col` on both sides
collapses to that single synthetic column. -/
def fastColumnsCorrected (u_cols d_cols : List Col) (cfg : VerifyColsCfg) :
    List String × String :=
  let req := (normalize_verify_columns cfg).filter
    (fun c => hasField u_cols c && hasField d_cols c)
  let pk0 := (pkFieldsOf u_cols).filter (fun c => c ∈ pkFieldsOf d_cols)
  let useCp : Bool := decide (pk0.length > 1) && hasField u_cols "__mo_cpkey_col" &&
    hasField d_cols "__mo_cpkey_col"
  let pk_cols := if useCp then ["__mo_cpkey_col"] else pk0
  if pk_cols ≠ [] ∧ req ≠ [] then
    (pk_cols ++ req.filter (fun c => ¬ c ∈ pk_cols),
     if useCp then "pk+cols_cpkey" else "pk+cols")
  else if pk_cols ≠ [] then (pk_cols, if useCp then "pk_cpkey" else "pk")
  else if req ≠ [] then (req, "cols")
  else ([], "count")

/-- `resolve_fast_check_columns` (branch_cdc.py lines 713-738): requested
columns present on both sides, common primary-key columns (collapsed to
`__mo_cpkey_col` when multi-column and present on both sides), then the
pk+cols / pk / cols / count decision; the chosen names are mapped back to
their descriptors through the field-keyed dicts. -/
def resolve_fast_check_columns (u_cols d_cols : List Col) (cfg : VerifyColsCfg) :
    List Col × List Col × String :=
  let req := (normalize_verify_columns cfg).filter
    (fun c => hasField u_cols c && hasField d_cols c)
  let pk0 := (pkFieldsOf u_cols).filter (fun c => c ∈ pkFieldsOf d_cols)
  let useCp : Bool := decide (pk0.length > 1) && hasField u_cols "__mo_cpkey_col" &&
    hasField d_cols "__mo_cpkey_col"
  let pk_cols := if useCp then ["__mo_cpkey_col"] else pk0
  let cd : List String × String :=
    if pk_cols ≠ [] ∧ req ≠ [] then
      (pk_cols ++ req.filter (fun c => ¬ c ∈ pk_cols),
       if useCp then "pk+cols_cpkey" else "pk+cols")
    else if pk_cols ≠ [] then (pk_cols, if useCp then "pk_cpkey" else "pk")
    else if req ≠ [] then (req, "cols")
    else ([], "count")
  (cd.1.filterMap (dictFind u_cols), cd.1.filterMap (dictFind d_cols), cd.2)

def FULL_VERIFY_MAX_BYTES : Int := 1024 * 1024 * 1024

def FULL_VERIFY_MAX_ROWS : Int := 100000

/-- `is_small_table` (lines 740-747): byte size when available and
positive, else row count when available, else not small. -/
def is_small_table (sizeBytes rowCount : Option Int) : Bool :=
  match sizeBytes with
  | some b =>
    if b > 0 then decide (b < FULL_VERIFY_MAX_BYTES)
    else
      match rowCount with
      | some n => decide (n < FULL_VERIFY_MAX_ROWS)
      | none => false
  | none =>
    match rowCount with
    | some n => decide (n < FULL_VERIFY_MAX_ROWS)
    | none => false

def isPrefixOfChars : List Char → List Char → Bool
  | [], _ => true
  | _ :: _, [] => false
  | a :: as, b :: bs => a = b && isPrefixOfChars as bs

def containsSub (pat : List Char) : List Char → Bool
  | [] => isPrefixOfChars pat []
  | c :: rest => isPrefixOfChars pat (c :: rest) || containsSub pat rest

def strLower (s : String) : String := String.mk (s.data.map Char.toLower)

/-- Per-column projection of `build_check_sql` (line 678): vector-typed
columns are hexed, all others cast to VARCHAR, NULL-safe. -/
def checkExpr (c : Col) : String :=
  if containsSub "vec".data (strLower c.type).data then
    "IFNULL(HEX(`" ++ c.field ++ "`), 'NULL')"
  else
    "IFNULL(CAST(`" ++ c.field ++ "` AS VARCHAR), 'NULL')"

def joinCommaSp : List String → String
  | [] => ""
  | [x] => x
  | x :: y :: r => x ++ ", " ++ joinCommaSp (y :: r)

/-- The `{MO_TS = ...}` snapshot clause (line 675); Python's truthiness
drops it for 0 as well as for None. -/
def snapshotClause : Option Int → String
  | some ts => if ts = 0 then "" else "\x7bMO_TS = " ++ toString ts ++ "\x7d"
  | none => ""

/-- `build_check_sql` (lines 674-679): count-only with a NULL hash when no
columns are selected, otherwise COUNT plus the order-independent
BIT_XOR/CRC32 combined hash over the projected columns. -/
def build_check_sql (db table : String) (cols : List Col) (moTs : Option Int) : String :=
  let sc := snapshotClause moTs
  if cols = [] then
    "SELECT COUNT(*) as c, NULL as h FROM `" ++ db ++ "`.`" ++ table ++ "`" ++ sc
  else
    "SELECT COUNT(*) as c, BIT_XOR(CRC32(CONCAT_WS(',', " ++
      joinCommaSp (cols.map checkExpr) ++ "))) as h FROM `" ++ db ++ "`.`" ++ table ++
      "`" ++ sc

/-- The column-selection and query-construction core of
`verify_consistency` (lines 763-769): `full` compares all columns, `fast`
uses `resolve_fast_check_columns`; the upstream query carries the MO_TS
snapshot clause, the downstream one never does.  No table size or row
count enters this computation. -/
def verify_check_sqls (mode : String) (u_cols d_cols : List Col) (cfg : VerifyColsCfg)
    (u_db u_table d_db d_table : String) (moTs : Option Int) :
    String × String × String :=
  let sel : List Col × List Col × String :=
    if mode = "full" then (u_cols, d_cols, "all")
    else resolve_fast_check_columns u_cols d_cols cfg
  (build_check_sql u_db u_table sel.1 moTs, build_check_sql d_db d_table sel.2.1 none,
   sel.2.2)

/-- The pass/fail comparison of line 785: equal counts and equal hashes,
a NULL hash on both sides also passing. -/
def verify_ok (uc dc : Int) (uh dh : Option Int) : Bool :=
  decide (uc = dc) && (decide (uh = dh) || (uh.isNone && dh.isNone))

/-- The claim's description of fast mode's non-sampled branch: the
configured subset unioned with the primary key, falling back to *all
columns* when no such subset applies. -/
def fastColumnsClaimSpec (u_cols d_cols : List Col) (cfg : VerifyColsCfg) :
    List String :=
  let req := (normalize_verify_columns cfg).filter
    (fun c => hasField u_cols c && hasField d_cols c)
  let pk := (pkFieldsOf u_cols).filter (fun c => c ∈ pkFieldsOf d_cols)
  if pk ≠ [] ∨ req ≠ [] then pk ++ req.filter (fun c => ¬ c ∈ pk)
  else u_cols.map (fun c => c.field)

/-- C7 counterexample: with no primary key and no configured column
subset, fast mode does not fall back to all columns — it selects *no*
columns (`"count"`, a count-only comparison with NULL hashes), diverging
from the claim's description. -/
theorem claimC7_fast_counterexample :
    ((resolve_fast_check_columns [⟨"a", "int", ""⟩] [⟨"a", "int", ""⟩]
        VerifyColsCfg.absent).1.map (fun c => c.field) ≠
      fastColumnsClaimSpec [⟨"a", "int", ""⟩] [⟨"a", "int", ""⟩]
        VerifyColsCfg.absent) ∧
    (resolve_fast_check_columns [⟨"a", "int", ""⟩] [⟨"a", "int", ""⟩]
        VerifyColsCfg.absent).2.2 = "count" ∧
    build_check_sql "db1" "t1"
        (resolve_fast_check_columns [⟨"a", "int", ""⟩] [⟨"a", "int", ""⟩]
          VerifyColsCfg.absent).1 none =
      "SELECT COUNT(*) as c, NULL as h FROM `db1`.`t1`" := by
  refine ⟨by decide, by decide, by decide⟩

lemma resolve_eq_corrected_shape (u_cols d_cols : List Col) (cfg : VerifyColsCfg) :
    resolve_fast_check_columns u_cols d_cols cfg =
      ((fastColumnsCorrected u_cols d_cols cfg).1.filterMap (dictFind u_cols),
       (fastColumnsCorrected u_cols d_cols cfg).1.filterMap (dictFind d_cols),
       (fastColumnsCorrected u_cols d_cols cfg).2) := rfl

lemma mem_pkFields_hasField {cols : List Col} {n : String}
    (h : n ∈ pkFieldsOf cols) : hasField cols n = true := by
  simp only [pkFieldsOf, List.mem_map, List.mem_filter] at h
  obtain ⟨c, ⟨hc, _⟩, hf⟩ := h
  simp only [hasField, List.any_eq_true]
  exact ⟨c, hc, by simp [hf]⟩

def fcReq (u_cols d_cols : List Col) (cfg : VerifyColsCfg) : List String :=
  (normalize_verify_columns cfg).filter
    (fun c => hasField u_cols c && hasField d_cols c)

def fcPk0 (u_cols d_cols : List Col) : List String :=
  (pkFieldsOf u_cols).filter (fun c => c ∈ pkFieldsOf d_cols)

def fcUseCp (u_cols d_cols : List Col) : Bool :=
  decide ((fcPk0 u_cols d_cols).length > 1) && hasField u_cols "__mo_cpkey_col" &&
    hasField d_cols "__mo_cpkey_col"

def fcPkCols (u_cols d_cols : List Col) : List String :=
  if fcUseCp u_cols d_cols then ["__mo_cpkey_col"] else fcPk0 u_cols d_cols

lemma fastColumnsCorrected_eq (u_cols d_cols : List Col) (cfg : VerifyColsCfg) :
    fastColumnsCorrected u_cols d_cols cfg =
      if fcPkCols u_cols d_cols ≠ [] ∧ fcReq u_cols d_cols cfg ≠ [] then
        (fcPkCols u_cols d_cols ++
           (fcReq u_cols d_cols cfg).filter (fun c => ¬ c ∈ fcPkCols u_cols d_cols),
         if fcUseCp u_cols d_cols then "pk+cols_cpkey" else "pk+cols")
      else if fcPkCols u_cols d_cols ≠ [] then
        (fcPkCols u_cols d_cols, if fcUseCp u_cols d_cols then "pk_cpkey" else "pk")
      else if fcReq u_cols d_cols cfg ≠ [] then (fcReq u_cols d_cols cfg, "cols")
      else ([], "count") := rfl

lemma fcReq_mem (u_cols d_cols : List Col) (cfg : VerifyColsCfg) :
    ∀ m ∈ fcReq u_cols d_cols cfg,
      hasField u_cols m = true ∧ hasField d_cols m = true := by
  intro m hm
  have h := (List.mem_filter.mp hm).2
  exact ⟨((Bool.and_eq_true _ _).mp h).1, ((Bool.and_eq_true _ _).mp h).2⟩

lemma fcPkCols_mem (u_cols d_cols : List Col) :
    ∀ m ∈ fcPkCols u_cols d_cols,
      hasField u_cols m = true ∧ hasField d_cols m = true := by
  intro m hm
  rw [fcPkCols] at hm
  by_cases hcp : fcUseCp u_cols d_cols = true
  · rw [if_pos hcp] at hm
    simp only [List.mem_singleton] at hm
    subst hm
    exact ⟨((Bool.and_eq_true _ _).mp ((Bool.and_eq_true _ _).mp hcp).1).2,
           ((Bool.and_eq_true _ _).mp hcp).2⟩
  · rw [if_neg hcp] at hm
    obtain ⟨hu, hd⟩ := List.mem_filter.mp hm
    exact ⟨mem_pkFields_hasField hu, mem_pkFields_hasField (by simpa using hd)⟩

lemma fastColumnsCorrected_mem (u_cols d_cols : List Col) (cfg : VerifyColsCfg) :
    ∀ n ∈ (fastColumnsCorrected u_cols d_cols cfg).1,
      hasField u_cols n = true ∧ hasField d_cols n = true := by
  intro n hn
  rw [fastColumnsCorrected_eq] at hn
  simp only [apply_ite Prod.fst] at hn
  split_ifs at hn
  · rcases List.mem_append.mp hn with hl | hr
    · exact fcPkCols_mem u_cols d_cols n hl
    · exact fcReq_mem u_cols d_cols cfg n (List.mem_filter.mp hr).1
  · exact fcPkCols_mem u_cols d_cols n hn
  · exact fcReq_mem u_cols d_cols cfg n hn
  · simp at hn

lemma dictFind_field {cs : List Col} {f : String} (h : hasField cs f = true) :
    ∃ c, dictFind cs f = some c ∧ c.field = f := by
  have hex : ∃ x ∈ cs.reverse, (fun c => decide (c.field = f)) x = true := by
    simp only [hasField, List.any_eq_true] at h
    obtain ⟨c, hc, hcf⟩ := h
    exact ⟨c, List.mem_reverse.mpr hc, hcf⟩
  have hsome : (cs.reverse.find? (fun c => decide (c.field = f))).isSome :=
    List.find?_isSome.mpr hex
  obtain ⟨c, hc⟩ := Option.isSome_iff_exists.mp hsome
  refine ⟨c, hc, ?_⟩
  have := List.find?_some hc
  simpa using this

lemma filterMap_dictFind_fields (cs : List Col) :
    ∀ names : List String, (∀ n ∈ names, hasField cs n = true) →
      (names.filterMap (dictFind cs)).map (fun c => c.field) = names := by
  intro names
  induction names with
  | nil => intro _; rfl
  | cons n ns ih =>
    intro h
    obtain ⟨c, hc, hcf⟩ := dictFind_field (h n (by simp))
    rw [List.filterMap_cons, hc, List.map_cons, hcf,
        ih (fun m hm => h m (by simp [hm]))]

/-- C7 (amended): fast verification does not sample hash buckets and does
not fall back to all columns.  The resolver picks exactly the corrected
column set — common primary key unioned with the configured subset when
both apply (a multi-column key collapsing to `__mo_cpkey_col` when present
on both sides), primary key alone, subset alone, or *no* columns
(count-only) — on both the upstream and downstream side, with the matching
detail tag; and fast mode's queries are precisely the full-verification
count+BIT_XOR(CRC32) queries restricted to that resolved set over the
whole table, the upstream one under the MO_TS snapshot, with no table-size
or row-count input anywhere (`is_small_table` only gates when the periodic
full verification runs). -/
theorem claimC7_fast_verify_amended (u_cols d_cols : List Col) (cfg : VerifyColsCfg)
    (u_db u_table d_db d_table : String) (moTs : Option Int) :
    ((resolve_fast_check_columns u_cols d_cols cfg).1.map (fun c => c.field) =
      (fastColumnsCorrected u_cols d_cols cfg).1) ∧
    ((resolve_fast_check_columns u_cols d_cols cfg).2.1.map (fun c => c.field) =
      (fastColumnsCorrected u_cols d_cols cfg).1) ∧
    ((resolve_fast_check_columns u_cols d_cols cfg).2.2 =
      (fastColumnsCorrected u_cols d_cols cfg).2) ∧
    (verify_check_sqls "fast" u_cols d_cols cfg u_db u_table d_db d_table moTs =
      (build_check_sql u_db u_table
         (resolve_fast_check_columns u_cols d_cols cfg).1 moTs,
       build_check_sql d_db d_table
         (resolve_fast_check_columns u_cols d_cols cfg).2.1 none,
       (resolve_fast_check_columns u_cols d_cols cfg).2.2)) := by
  refine ⟨?_, ?_, rfl, rfl⟩
  · rw [resolve_eq_corrected_shape]
    exact filterMap_dictFind_fields u_cols _
      (fun n hn => (fastColumnsCorrected_mem u_cols d_cols cfg n hn).1)
  · rw [resolve_eq_corrected_shape]
    exact filterMap_dictFind_fields d_cols _
      (fun n hn => (fastColumnsCorrected_mem u_cols d_cols cfg n hn).2)
